import Mathlib

/-!
Verification of the ppt_translator repository against its specification.

Each Python function that the claims mention is shallowly embedded as a Lean
definition, translated from the source files (`pdf_generator.py`,
`qwen_vl_utils.py`, `qwen_utils.py`, `main.py`).  External effects (the
ModelScope API, the filesystem, PIL drawing) are modelled by explicit
parameters and by values recording the operations performed.
-/

namespace PPT

/-! ## pdf_generator.natural_sort_key

Source (`pdf_generator.py`, lines 8-21):

    def natural_sort_key(s):
        return [int(text) if text.isdigit() else text.lower()
                for text in re.split(r'(\d+)', s)]

The embedding models the relevant Python primitives on the Latin-1 range of
`Char`:

* `re.split(r'(\d+)', s)` splits `s` on maximal runs of `\d` characters and
  keeps the runs; `\d` matches exactly the Unicode decimal digits (category
  Nd), which within Latin-1 are the ASCII digits `0`-`9`.
* `str.isdigit` is true for a nonempty string all of whose characters have
  the Unicode digit property; within Latin-1 these are the ASCII digits and
  the superscripts U+00B9 (¹), U+00B2 (²), U+00B3 (³).
* `int(text)` succeeds on a string of decimal digits (category Nd) and
  raises `ValueError` otherwise; in particular it rejects the superscript
  digits even though `str.isdigit` accepts them.  The raise is modelled by
  `Option`.
* `str.lower` is modelled by ASCII case folding.
-/

/-- A component of a natural-sort key: either an `int` or a `str`
(Python heterogeneous list element). -/
abbrev NTok := Nat ⊕ String

/-- Models the Python regex class `\d` (Unicode category Nd) on Latin-1:
exactly the ASCII decimal digits. -/
def reDigitChar (c : Char) : Bool := c.isDigit

/-- Models the Python per-character digit property used by `str.isdigit` on
Latin-1: ASCII digits plus the superscript digits U+00B9, U+00B2, U+00B3. -/
def pyCharIsDigit (c : Char) : Bool :=
  c.isDigit || c = '¹' || c = '²' || c = '³'

/-- Models Python `str.isdigit`: nonempty and every character has the digit
property. -/
def pyStrIsDigit (s : String) : Bool :=
  !s.isEmpty && s.data.all pyCharIsDigit

/-- Numeric value of a list of ASCII digit characters. -/
def digitsToNat (cs : List Char) : Nat :=
  cs.foldl (fun a c => 10 * a + (c.toNat - 48)) 0

/-- Models Python `int(text)` for the strings that can reach it here
(`text.isdigit()` holds, so no sign, no spaces, no underscores): succeeds
exactly when `text` is a nonempty string of decimal (category Nd) digits,
i.e. on Latin-1 a nonempty string of ASCII digits; `ValueError` is `none`. -/
def pyInt (s : String) : Option Nat :=
  if !s.isEmpty && s.data.all Char.isDigit then some (digitsToNat s.data) else none

/-- Models Python `str.lower` (ASCII case folding). -/
def pyLower (s : String) : String := String.mk (s.data.map Char.toLower)

/-- Worker for `re.split(r'(\d+)', s)`: `acc` is the current run (reversed),
`inD` tells whether the current run is a digit run.  The result alternates
non-digit and digit runs, starting and ending with a (possibly empty)
non-digit run, exactly as `re.split` with one capture group does. -/
def reSplitGo : List Char → List Char → Bool → List String
  | [], acc, inD =>
    if inD then [String.mk acc.reverse, ""] else [String.mk acc.reverse]
  | c :: rest, acc, inD =>
    if reDigitChar c then
      if inD then reSplitGo rest (c :: acc) true
      else String.mk acc.reverse :: reSplitGo rest [c] true
    else
      if inD then String.mk acc.reverse :: reSplitGo rest [c] false
      else reSplitGo rest (c :: acc) false

/-- Models `re.split(r'(\d+)', s)`. -/
def reSplitDigits (s : String) : List String := reSplitGo s.data [] false

/-- The element computation of the list comprehension:
`int(text) if text.isdigit() else text.lower()`. -/
def keyTok (t : String) : Option NTok :=
  if pyStrIsDigit t then (pyInt t).map Sum.inl else some (Sum.inr (pyLower t))

/-- `natural_sort_key` from `pdf_generator.py`.  Returns `none` when the
Python original raises `ValueError` (an `isdigit`-true token that `int`
rejects, e.g. a superscript digit). -/
def natural_sort_key (s : String) : Option (List NTok) :=
  (reSplitDigits s).mapM keyTok

/-! ### Comparison of keys

Python compares the resulting lists elementwise; comparing an `int` with a
`str` raises `TypeError`.  `pyTokCmp`/`pyKeyCmp` model this partial
comparison (`none` = `TypeError`); `totTokCmp`/`totKeyCmp` are the total
comparison used to run the sort, and they agree with the partial one
whenever it is defined (proved below). -/

/-- Three-way comparison on `Nat` written out. -/
def natCmpO (m n : Nat) : Ordering :=
  if m < n then .lt else if n < m then .gt else .eq

/-- Three-way comparison on `Char` (by code point, as in Python). -/
def charCmpO (a b : Char) : Ordering :=
  if a < b then .lt else if b < a then .gt else .eq

/-- Lexicographic extension of a three-way comparison to lists: first
difference decides, a strict prefix is smaller (Python sequence
comparison). -/
def lexCmp (cmp : α → α → Ordering) : List α → List α → Ordering
  | [], [] => .eq
  | [], _ :: _ => .lt
  | _ :: _, [] => .gt
  | a :: as, b :: bs =>
    match cmp a b with
    | .eq => lexCmp cmp as bs
    | o => o

/-- Lexicographic three-way comparison on lists of characters. -/
def charsCmpO : List Char → List Char → Ordering := lexCmp charCmpO

/-- Three-way comparison on `String` (code-point lexicographic, as in
Python). -/
def strCmpO (s t : String) : Ordering := charsCmpO s.data t.data

/-- Python comparison of two key elements; `none` models `TypeError`
(`int` vs `str`). -/
def pyTokCmp : NTok → NTok → Option Ordering
  | Sum.inl m, Sum.inl n => some (natCmpO m n)
  | Sum.inr s, Sum.inr t => some (strCmpO s t)
  | _, _ => none

/-- Python list comparison of two keys: elementwise, first difference
decides, a strict prefix is smaller; `none` models `TypeError`. -/
def pyKeyCmp : List NTok → List NTok → Option Ordering
  | [], [] => some .eq
  | [], _ :: _ => some .lt
  | _ :: _, [] => some .gt
  | a :: as, b :: bs =>
    match pyTokCmp a b with
    | some .eq => pyKeyCmp as bs
    | some o => some o
    | none => none

/-- Total extension of `pyTokCmp` (ranking `int` below `str`); used only to
run the sort, and equal to `pyTokCmp` on same-kind elements. -/
def totTokCmp : NTok → NTok → Ordering
  | Sum.inl m, Sum.inl n => natCmpO m n
  | Sum.inr s, Sum.inr t => strCmpO s t
  | Sum.inl _, Sum.inr _ => .lt
  | Sum.inr _, Sum.inl _ => .gt

/-- Total extension of `pyKeyCmp`. -/
def totKeyCmp : List NTok → List NTok → Ordering := lexCmp totTokCmp

/-- `k ≤ k'` for keys, via the total comparison. -/
def keyLE (k k' : List NTok) : Bool :=
  match totKeyCmp k k' with
  | .gt => false
  | _ => true

/-- Structural invariant of a key produced by `natural_sort_key`: elements
alternate `str`, `int`, `str`, …  (`expectInt = false` at the start). -/
def altKey : List NTok → Bool → Bool
  | [], _ => true
  | Sum.inr _ :: r, false => altKey r true
  | Sum.inl _ :: r, true => altKey r false
  | _, _ => false

/-- Well-formedness of the token list produced by `re.split(r'(\d+)', s)`:
runs alternate between `\d`-free text (`expectDigits = false`) and nonempty
all-`\d` runs (`expectDigits = true`). -/
def runsOK : List String → Bool → Bool
  | [], _ => true
  | t :: r, false => t.data.all (fun c => !reDigitChar c) && runsOK r true
  | t :: r, true => (!t.isEmpty && t.data.all reDigitChar) && runsOK r false

/-! ## Sorting by the natural key, and `batch_process_images`

`sorted(l, key=natural_sort_key)` computes the key once per element
(decorate-sort-undecorate) and stable-sorts by `<` on the keys; a
`ValueError` raised by the key function aborts the whole sort (`none`).
CPython's sort is a stable comparison sort, and two defined keys are always
comparable (`pyKeyCmp` is `some`, proved below), with `keyLE` agreeing with
the Python comparison on them; so any stable sort with respect to `keyLE`
models it — we use insertion sort, which evaluates definitionally. -/

/-- The order on decorated elements used to run the sort. -/
def keyPairLE (a b : String × List NTok) : Prop := keyLE a.2 b.2 = true

instance : DecidableRel keyPairLE := fun a b => by
  unfold keyPairLE; infer_instance

/-- Decorate each element with its natural-sort key; `none` when the key
function raises on some element. -/
def decorateKeys (l : List String) : Option (List (String × List NTok)) :=
  l.mapM fun s => (natural_sort_key s).map fun k => (s, k)

/-- Models Python `sorted(l, key=natural_sort_key)`. -/
def pySortedByNatKey (l : List String) : Option (List String) :=
  (decorateKeys l).map fun ps => (List.insertionSort keyPairLE ps).map Prod.fst

/-- `batch_process_images` from `qwen_utils.py` (lines 372-401): sort the
input paths by the natural key, process each image in that order (the
per-page `main` is abstracted as `proc`, successful on every page), then
sort the collected output paths by the natural key again and return them. -/
def batch_process_images (proc : String → String) (image_paths : List String) :
    Option (List String) := do
  let sortedIn ← pySortedByNatKey image_paths
  let translated_paths := sortedIn.map proc
  pySortedByNatKey translated_paths

/-! ## qwen_vl_utils.smart_resize

Source (`qwen_vl_utils.py`):

    current_pixels = height * width
    if min_pixels <= current_pixels <= max_pixels:
        return height, width
    if current_pixels < min_pixels:
        scale = (min_pixels / current_pixels) ** 0.5
    else:
        scale = (max_pixels / current_pixels) ** 0.5
    return int(height * scale), int(width * scale)

The scaling branch computes `int(height * sqrt(target / current_pixels))`
(real square root; Python's float arithmetic is modelled by exact real
arithmetic).  For `d, t, cp : ℕ` with `cp > 0` one has
`⌊d * √(t / cp)⌋ = Nat.sqrt (d² * t / cp)` (with `/` on the right being
`Nat` division) — proved as `floor_mul_sqrt_div` below — which gives this
executable form; the theorem `smart_resize_eq_floor_sqrt` re-states it
against the source's `√` formula. -/

/-- `smart_resize` from `qwen_vl_utils.py`. -/
def smart_resize (height width min_pixels max_pixels : Nat) : Nat × Nat :=
  let current_pixels := height * width
  if min_pixels ≤ current_pixels ∧ current_pixels ≤ max_pixels then
    (height, width)
  else if current_pixels < min_pixels then
    (Nat.sqrt (height * height * min_pixels / current_pixels),
     Nat.sqrt (width * width * min_pixels / current_pixels))
  else
    (Nat.sqrt (height * height * max_pixels / current_pixels),
     Nat.sqrt (width * width * max_pixels / current_pixels))

/-! ## qwen_utils: credentials, translation, inference, per-page `main`

The ModelScope credential is read once at import time
(`MODELSCOPE_API_KEY = os.getenv(...)`), modelled as an `Option String`
parameter (`none` = unset).  Python truthiness of the value: `None` and the
empty string are falsy. -/

/-- Python falsiness of an optional string (`not MODELSCOPE_API_KEY`). -/
def pyFalsy : Option String → Bool
  | none => true
  | some s => s.isEmpty

/-- A Python exception, as far as the claims need to distinguish them. -/
inductive PyErr
  | nameError (msg : String)
  | valueError (msg : String)
  | typeError (msg : String)
  | other (msg : String)
deriving DecidableEq, Repr

/-- `translateWithAPI` from `qwen_utils.py` (lines 48-80).  `svc` is the
remote translation service (which may raise); the `Bool` in the result
records whether the remote service was invoked. -/
def translateWithAPI (key : Option String) (svc : String → Except PyErr String)
    (raw : String) : Except PyErr (String × Bool) :=
  if pyFalsy key then .ok (raw, false)
  else (svc raw).map fun t => (t, true)

/-- Boolean string-suffix test on code points. -/
def strEndsWith (s t : String) : Bool := t.data.isSuffixOf s.data

/-- `inference_with_api` from `qwen_utils.py` (lines 242-302): raises
`ValueError` when the credential is unset, raises `ValueError` on an
unsupported extension, otherwise queries the detection service `svc`. -/
def inference_with_api (key : Option String) (svc : String → Except PyErr String)
    (image_path : String) : Except PyErr String :=
  if pyFalsy key then
    .error (.valueError "MODELSCOPE_API_KEY environment variable not set. Cannot perform inference.")
  else if !(strEndsWith image_path ".png" || strEndsWith image_path ".jpg" ||
            strEndsWith image_path ".jpeg" || strEndsWith image_path ".webp") then
    .error (.valueError "image_path must end with .png, .jpg, .jpeg, or .webp")
  else svc image_path

/-- The modules imported by `qwen_utils.py` (its `import` statements at
lines 1-13 and 368-370).  `shutil` is not among them: the module's global
namespace has no binding for the name `shutil`. -/
def qwen_utils_imports : List String :=
  ["json", "random", "io", "ast", "PIL", "IPython", "openai", "os", "base64",
   "qwen_vl_utils", "re", "sys", "pdf_generator"]

/-- `os.path.basename` for `/`-separated paths. -/
def pyBasename (p : String) : String :=
  String.mk (((p.data.reverse).takeWhile (fun c => c ≠ '/')).reverse)

/-- `os.path.dirname` for `/`-separated paths (without the trailing slash,
as in Python). -/
def pyDirname (p : String) : String :=
  let rev := p.data.reverse
  let rest := rev.dropWhile (fun c => c ≠ '/')
  String.mk ((rest.dropWhile (fun c => c = '/')).reverse)

/-- `os.path.splitext` applied to a basename: split at the last dot, unless
the dot is the leading character. -/
def pySplitExt (file_name : String) : String × String :=
  let cs := file_name.data
  let revAfter := cs.reverse.takeWhile (fun c => c ≠ '.')
  if revAfter.length = cs.length then (file_name, "")
  else
    let root := cs.take (cs.length - revAfter.length - 1)
    if root = [] then (file_name, "")
    else (String.mk root, String.mk (cs.drop (cs.length - revAfter.length - 1)))

/-- The output path computed by `main` when `output_path is None`
(`qwen_utils.py` lines 332-342 and, identically, 352-361). -/
def mainOutputPath (image_path : String) (output_path : Option String)
    (pdf_name : Option String) : String :=
  match output_path with
  | some p => p
  | none =>
    let file_name := pyBasename image_path
    let be := pySplitExt file_name
    match pdf_name with
    | some name => "outputs/" ++ name ++ "/" ++ be.1 ++ "_translated" ++ be.2
    | none => pyDirname image_path ++ "/" ++ be.1 ++ "_translated" ++ be.2

/-- The `except` branch of `main` (`qwen_utils.py` lines 346-366): compute
the output path, then execute `shutil.copy(image_path, output_path)`.
Evaluating the name `shutil` looks it up in the module's global namespace;
since `qwen_utils.py` never imports `shutil`, the lookup itself raises
`NameError`, which propagates out of `main`. -/
def mainFallback (image_path : String) (output_path : Option String)
    (pdf_name : Option String) : Except PyErr String :=
  let out := mainOutputPath image_path output_path pdf_name
  if "shutil" ∈ qwen_utils_imports then .ok out
  else .error (.nameError "name shutil is not defined")

/-- Per-page `main` from `qwen_utils.py` (lines 305-366).  `tryBody` is the
outcome of the `try` block (open the image, `smart_resize`,
`inference_with_api`, `plot_text_bounding_boxes`, `save_image`): `.ok` with
the saved path, or `.error` when any step — in particular the detection
call — raises.  On error, control reaches the fallback copy. -/
def main (tryBody : Except PyErr String) (image_path : String)
    (output_path : Option String) (pdf_name : Option String) : Except PyErr String :=
  match tryBody with
  | .ok saved => .ok saved
  | .error _ => mainFallback image_path output_path pdf_name

/-- `check_environment` from `main.py` (lines 9-17). -/
def check_environment (key : Option String) : Bool := !pyFalsy key

/-- Outcome of a command-line run of `main.py`. -/
inductive CliOutcome
  | configExit
  | ran (pagesProcessed : Nat)
deriving DecidableEq, Repr

/-- The startup portion of `main.py`'s `main` (lines 19-22, 52-61): if
`check_environment` fails, `sys.exit(1)` before any page is converted or
processed; otherwise all pages are handed to `batch_process_images`. -/
def cli_main (key : Option String) (numPages : Nat) : CliOutcome :=
  if !check_environment key then .configExit else .ran numPages

/-! ## The response-parsing chain of `plot_text_bounding_boxes`

`qwen_utils.py` lines 99-207.  The stages, in source order:

1. `parse_json` (lines 31-46): strip an enclosing markdown fence.
2. `json_data.replace(':=', ':')` (line 136).
3. `json.loads` (line 140); on `JSONDecodeError`:
4. `re.findall` with `r'"bbox_2d":\s*\[(.*?)\],\s*"text_content":\s*"(.*?)"'`
   and `int(x.strip())` on the comma-separated first group (lines 143-153);
   an exception here (e.g. `int('')`) escapes to the outer handler, which
   tries:
5. `ast.literal_eval` (line 161); on failure the function returns the
   unannotated image.

`json.loads` and `ast.literal_eval` are Python-runtime functions; they are
modelled below by executable parsers (`jsonLoads`, `pyLiteralEval`)
following their documented grammar (for `literal_eval`, the sublanguage a
detection payload can use: lists, dicts with string keys, single- or
double-quoted strings, numbers, `True`/`False`/`None`).  Numbers are
modelled by exact unnormalized fractions (`PyQ`), so that all arithmetic
evaluates inside the kernel. -/

/-- An exact number: the fraction `n / d` (not necessarily reduced;
`d` is positive for every value built here).  Python ints and floats are
both modelled exactly. -/
structure PyQ where
  n : Int
  d : Int
deriving DecidableEq, Repr

/-- Embed an integer. -/
def PyQ.ofInt (z : Int) : PyQ := ⟨z, 1⟩

/-- Multiplication of fractions. -/
def PyQ.mul (a b : PyQ) : PyQ := ⟨a.n * b.n, a.d * b.d⟩

/-- Division of fractions (the caller guards against a zero divisor, as
Python raises `ZeroDivisionError` there). -/
def PyQ.div (a b : PyQ) : PyQ := ⟨a.n * b.d, a.d * b.n⟩

/-- Python `int(x)` on a number: truncation toward zero. -/
def PyQ.trunc (a : PyQ) : Int := Int.tdiv a.n a.d

/-- Zero test (`d` is never zero for values built here). -/
def PyQ.isZero (a : PyQ) : Bool := a.n = 0

/-- The fraction `m * 10 ^ e` for a decimal mantissa and exponent. -/
def PyQ.scientific (m : Nat) (e : Int) : PyQ :=
  if 0 ≤ e then ⟨(m : Int) * 10 ^ e.toNat, 1⟩ else ⟨(m : Int), 10 ^ (-e).toNat⟩

/-- Negation. -/
def PyQ.neg (a : PyQ) : PyQ := ⟨-a.n, a.d⟩

/-- A parsed Python value (the result of `json.loads`, of
`ast.literal_eval`, or built by the regex fallback). -/
inductive PyVal
  | null
  | bool (b : Bool)
  | num (q : PyQ)
  | str (s : String)
  | arr (xs : List PyVal)
  | obj (kvs : List (String × PyVal))

/-- A JSON token. -/
inductive JTok
  | lbrace | rbrace | lbrack | rbrack | colon | comma
  | lit (v : PyVal)

/-- JSON whitespace (RFC 8259: space, tab, line feed, carriage return). -/
def jsonWsChar (c : Char) : Bool :=
  c = ' ' || c = '\t' || c = '\n' || c = '\r'

/-- Characters that can continue a numeric token run. -/
def numRunChar (c : Char) : Bool :=
  c.isDigit || c = '+' || c = '-' || c = '.' || c = 'e' || c = 'E'

/-- Hexadecimal digit value. -/
def hexVal (c : Char) : Nat :=
  if c.isDigit then c.toNat - 48
  else if 'a' ≤ c ∧ c ≤ 'f' then c.toNat - 87
  else c.toNat - 55

/-- Value of a `\uXXXX` escape. -/
def hex4Val (hex : List Char) : Nat :=
  hex.foldl (fun a c => 16 * a + hexVal c) 0

/-- Exponent digits with optional sign. -/
def parseExpDigits (cs : List Char) : Option ℤ :=
  let (eneg, cs1) := match cs with
    | '-' :: r => (true, r)
    | '+' :: r => (false, r)
    | _ => (false, cs)
  if cs1.isEmpty ∨ ¬cs1.all Char.isDigit then none
  else some (if eneg then -(digitsToNat cs1 : ℤ) else (digitsToNat cs1 : ℤ))

/-- Parse a maximal numeric run as a JSON number
(`-?(0|[1-9][0-9]*)(\.[0-9]+)?([eE][+-]?[0-9]+)?`); `none` when the run is
not a well-formed JSON number. -/
def numFromRun (cs : List Char) : Option PyQ :=
  let (neg, cs1) := match cs with
    | '-' :: r => (true, r)
    | _ => (false, cs)
  let ip := cs1.takeWhile Char.isDigit
  let r1 := cs1.dropWhile Char.isDigit
  if ip.isEmpty then none
  else if 1 < ip.length ∧ ip.head? = some '0' then none
  else
    let (fp, r2) := match r1 with
      | '.' :: r => (r.takeWhile Char.isDigit, (r.dropWhile Char.isDigit : List Char))
      | _ => (([] : List Char), r1)
    if r1 ≠ [] ∧ r1.head? = some '.' ∧ fp.isEmpty then none
    else
      let expPart : Option ℤ := match r2 with
        | [] => some 0
        | 'e' :: r => parseExpDigits r
        | 'E' :: r => parseExpDigits r
        | _ => none
      match expPart with
      | none => none
      | some e =>
        let v := PyQ.scientific (digitsToNat (ip ++ fp)) (e - fp.length)
        some (if neg then v.neg else v)

/-- Turn a completed keyword run into a token value. -/
def wordVal (s : String) : Option PyVal :=
  if s = "true" then some (.bool true)
  else if s = "false" then some (.bool false)
  else if s = "null" then some .null
  else none

/-- Tokenizer state: accumulated tokens (reversed) plus the current partial
token.  `sfail` is an unrecoverable lexical error (`JSONDecodeError`). -/
inductive TkSt
  | top (acc : List JTok)
  | instr (acc : List JTok) (cur : List Char)
  | esc (acc : List JTok) (cur : List Char)
  | uni (acc : List JTok) (cur : List Char) (hex : List Char)
  | innum (acc : List JTok) (cur : List Char)
  | inword (acc : List JTok) (cur : List Char)
  | sfail

/-- One tokenizer step from the `top` state. -/
def topStep (acc : List JTok) (c : Char) : TkSt :=
  if jsonWsChar c then .top acc
  else if c = '\x7b' then .top (.lbrace :: acc)
  else if c = '\x7d' then .top (.rbrace :: acc)
  else if c = '[' then .top (.lbrack :: acc)
  else if c = ']' then .top (.rbrack :: acc)
  else if c = ':' then .top (.colon :: acc)
  else if c = ',' then .top (.comma :: acc)
  else if c = '"' then .instr acc []
  else if numRunChar c then .innum acc [c]
  else if c.isAlpha then .inword acc [c]
  else .sfail

/-- One tokenizer step. -/
def tkStep (st : TkSt) (c : Char) : TkSt :=
  match st with
  | .top acc => topStep acc c
  | .instr acc cur =>
    if c = '"' then .top (.lit (.str (String.mk cur.reverse)) :: acc)
    else if c = '\\' then .esc acc cur
    else if c.toNat < 32 then .sfail
    else .instr acc (c :: cur)
  | .esc acc cur =>
    if c = '"' then .instr acc ('"' :: cur)
    else if c = '\\' then .instr acc ('\\' :: cur)
    else if c = '/' then .instr acc ('/' :: cur)
    else if c = 'b' then .instr acc ('\x08' :: cur)
    else if c = 'f' then .instr acc ('\x0c' :: cur)
    else if c = 'n' then .instr acc ('\n' :: cur)
    else if c = 'r' then .instr acc ('\r' :: cur)
    else if c = 't' then .instr acc ('\t' :: cur)
    else if c = 'u' then .uni acc cur []
    else .sfail
  | .uni acc cur hex =>
    if c.isDigit ∨ ('a' ≤ c ∧ c ≤ 'f') ∨ ('A' ≤ c ∧ c ≤ 'F') then
      if hex.length = 3 then .instr acc (Char.ofNat (hex4Val (hex ++ [c])) :: cur)
      else .uni acc cur (hex ++ [c])
    else .sfail
  | .innum acc cur =>
    if numRunChar c then .innum acc (c :: cur)
    else
      match numFromRun cur.reverse with
      | some q => topStep (.lit (.num q) :: acc) c
      | none => .sfail
  | .inword acc cur =>
    if c.isAlpha then .inword acc (c :: cur)
    else
      match wordVal (String.mk cur.reverse) with
      | some v => topStep (.lit v :: acc) c
      | none => .sfail
  | .sfail => .sfail

/-- Finish tokenizing at end of input. -/
def tkFinish : TkSt → Option (List JTok)
  | .top acc => some acc.reverse
  | .innum acc cur =>
    (numFromRun cur.reverse).map fun q => (JTok.lit (.num q) :: acc).reverse
  | .inword acc cur =>
    (wordVal (String.mk cur.reverse)).map fun v => (JTok.lit v :: acc).reverse
  | _ => none

/-- Tokenize a JSON document; `none` models `JSONDecodeError` during
lexing (unterminated string, bad escape, bad number, stray character). -/
def jsonTokenize (s : String) : Option (List JTok) :=
  tkFinish (s.data.foldl tkStep (.top []))

/-- Insert into a Python dict literal: a duplicate key overwrites in
place. -/
def upsertKV (kvs : List (String × PyVal)) (k : String) (v : PyVal) :
    List (String × PyVal) :=
  if kvs.any (fun kv => kv.1 = k) then
    kvs.map fun kv => if kv.1 = k then (k, v) else kv
  else kvs ++ [(k, v)]

mutual

/-- Recursive-descent JSON value parser over tokens (fueled; the fuel is
always sufficient because every recursive call consumes a token). -/
def parseVal : Nat → List JTok → Option (PyVal × List JTok)
  | 0, _ => none
  | fuel + 1, tks =>
    match tks with
    | .lit v :: rest => some (v, rest)
    | .lbrack :: .rbrack :: rest => some (.arr [], rest)
    | .lbrack :: rest => parseArr fuel rest []
    | .lbrace :: .rbrace :: rest => some (.obj [], rest)
    | .lbrace :: rest => parseObj fuel rest []
    | _ => none

/-- Parse the elements of a JSON array after `[`. -/
def parseArr : Nat → List JTok → List PyVal → Option (PyVal × List JTok)
  | 0, _, _ => none
  | fuel + 1, tks, acc =>
    match parseVal fuel tks with
    | none => none
    | some (v, rest) =>
      match rest with
      | .comma :: r2 => parseArr fuel r2 (v :: acc)
      | .rbrack :: r2 => some (.arr (v :: acc).reverse, r2)
      | _ => none

/-- Parse the members of a JSON object after the opening brace. -/
def parseObj : Nat → List JTok → List (String × PyVal) →
    Option (PyVal × List JTok)
  | 0, _, _ => none
  | fuel + 1, tks, acc =>
    match tks with
    | .lit (.str k) :: .colon :: rest =>
      match parseVal fuel rest with
      | none => none
      | some (v, rest2) =>
        match rest2 with
        | .comma :: r2 => parseObj fuel r2 (upsertKV acc k v)
        | .rbrack :: _ => none
        | .rbrace :: r2 => some (.obj (upsertKV acc k v), r2)
        | _ => none
    | _ => none

end

/-- Models `json.loads`: tokenize, parse one value, require the input to be
exhausted; `none` models `json.JSONDecodeError`. -/
def jsonLoads (s : String) : Option PyVal :=
  match jsonTokenize s with
  | none => none
  | some tks =>
    match parseVal (tks.length + 1) tks with
    | some (v, []) => some v
    | _ => none

/-! ### `parse_json` (fence stripping) and the `':=' → ':'` replacement -/

/-- Split a character list on a separator, keeping empty pieces (Python
`str.split(sep)` semantics). -/
def splitOnChar (sep : Char) : List Char → List (List Char)
  | [] => [[]]
  | c :: rest =>
    match splitOnChar sep rest with
    | l :: ls => if c = sep then [] :: l :: ls else (c :: l) :: ls
    | [] => [[c]]

/-- The one-character line breaks of Python `str.splitlines()`: LF, CR,
VT, FF, FS, GS, RS, NEL, LINE SEPARATOR, PARAGRAPH SEPARATOR.  The
two-character break `"\r\n"` is handled separately in `pySplitlinesGo`. -/
def pyLineSepChar (c : Char) : Bool :=
  c = '\n' || c = '\r' || c = '\x0b' || c = '\x0c' || c = '\x1c' ||
  c = '\x1d' || c = '\x1e' || c = '\x85' || c = '\u2028' || c = '\u2029'

/-- Scanner for `str.splitlines()`: `acc` holds the current line reversed;
every line break ends a line, `"\r\n"` counts as a single break, and a
trailing break does not open a final empty line. -/
def pySplitlinesGo : List Char → List Char → List (List Char)
  | acc, [] => if acc = [] then [] else [acc.reverse]
  | acc, '\r' :: '\n' :: rest => acc.reverse :: pySplitlinesGo [] rest
  | acc, c :: rest =>
    if pyLineSepChar c then acc.reverse :: pySplitlinesGo [] rest
    else pySplitlinesGo (c :: acc) rest

/-- Python `str.splitlines()`. -/
def pySplitlines (cs : List Char) : List (List Char) := pySplitlinesGo [] cs

/-- `'\n'.join(...)` on character lists. -/
def joinNl (ls : List (List Char)) : List Char := List.intercalate ['\n'] ls

/-- The characters of the fence-opener line. -/
def jsonFenceChars : List Char := "\x60\x60\x60json".data

/-- The triple backtick. -/
def fence3 : List Char := "\x60\x60\x60".data

/-- `startsWith` on character lists. -/
def listStartsWith : List Char → List Char → Bool
  | [], _ => true
  | _ :: _, [] => false
  | n :: ns, h :: hs => n = h && listStartsWith ns hs

/-- `json_output.split('\x60\x60\x60')[0]`: everything before the first
triple-backtick. -/
def takeBeforeFence : List Char → List Char
  | [] => []
  | c :: rest =>
    if listStartsWith fence3 (c :: rest) then [] else c :: takeBeforeFence rest

/-- The scan of `parse_json`: find the first line equal to the fence
opener; if found, join the following lines and cut at the first closing
fence. -/
def parseJsonGo : List (List Char) → Option (List Char)
  | [] => none
  | l :: ls =>
    if l = jsonFenceChars then some (takeBeforeFence (joinNl ls))
    else parseJsonGo ls

/-- `parse_json` from `qwen_utils.py` (lines 31-46). -/
def parse_json (s : String) : String :=
  match parseJsonGo (pySplitlines s.data) with
  | some cs => String.mk cs
  | none => s

/-- `json_data.replace(':=', ':')` (line 136): left-to-right,
non-overlapping. -/
def replaceColonEq : List Char → List Char
  | ':' :: '=' :: rest => ':' :: replaceColonEq rest
  | c :: rest => c :: replaceColonEq rest
  | [] => []

/-! ### The regex fallback

Pattern: `r'"bbox_2d":\s*\[(.*?)\],\s*"text_content":\s*"(.*?)"'` with
`re.findall` (leftmost matches, non-overlapping, scanning resumes after
each match).  `.` does not match `'\n'`; the lazy groups take the shortest
text for which the rest of the pattern matches; `\s*` is effectively
possessive here because in each occurrence the character after it (`[` or
`"`) is not a whitespace character. -/

/-- The regex class `\s`. -/
def pyWsRe (c : Char) : Bool :=
  c = ' ' || c = '\t' || c = '\n' || c = '\r' || c = '\x0b' || c = '\x0c'

/-- Consume an exact literal; `none` on mismatch or exhausted input. -/
def dropExpect : List Char → List Char → Option (List Char)
  | [], cs => some cs
  | _ :: _, [] => none
  | l :: ls, c :: cs => if c = l then dropExpect ls cs else none

/-- Consume `\s*` (greedy). -/
def skipWsRe (cs : List Char) : List Char := cs.dropWhile pyWsRe

/-- Lazy `(.*?)"`: the shortest run of non-newline characters up to a
double quote; returns the group and the rest after the quote. -/
def findG2 : List Char → Option (List Char × List Char)
  | [] => none
  | c :: rest =>
    if c = '"' then some ([], rest)
    else if c = '\n' then none
    else (findG2 rest).map fun p => (c :: p.1, p.2)

/-- The pattern continuation after the first group:
`\],\s*"text_content":\s*"(.*?)"`. -/
def tryCont (cs : List Char) : Option (List Char × List Char) :=
  match dropExpect "],".data cs with
  | none => none
  | some r1 =>
    match dropExpect "\"text_content\":".data (skipWsRe r1) with
    | none => none
    | some r3 =>
      match dropExpect "\"".data (skipWsRe r3) with
      | none => none
      | some r5 => findG2 r5

/-- Lazy `(.*?)` before the continuation: extend the first group one
non-newline character at a time until `tryCont` matches. -/
def findG1 : List Char → Option (List Char × List Char × List Char)
  | [] => (tryCont []).map fun p => ([], p.1, p.2)
  | c :: rest =>
    match tryCont (c :: rest) with
    | some (g2, r) => some ([], g2, r)
    | none =>
      if c = '\n' then none
      else (findG1 rest).map fun p => (c :: p.1, p.2.1, p.2.2)

/-- Try to match the whole pattern at the current position; on success
return both groups and the rest of the input after the match. -/
def matchBBoxAt (cs : List Char) : Option (List Char × List Char × List Char) :=
  match dropExpect "\"bbox_2d\":".data cs with
  | none => none
  | some r1 =>
    match dropExpect "[".data (skipWsRe r1) with
    | none => none
    | some r2 => findG1 r2

theorem dropExpect_length : ∀ pat cs r, dropExpect pat cs = some r →
    r.length + pat.length = cs.length := by
  intro pat
  induction pat with
  | nil => intro cs r h; simp [dropExpect] at h; simp [h]
  | cons l ls ih =>
    intro cs r h
    cases cs with
    | nil => simp [dropExpect] at h
    | cons c cs =>
      simp only [dropExpect] at h
      split at h
      · have := ih cs r h
        simp only [List.length_cons]
        omega
      · exact absurd h (by simp)

theorem skipWsRe_length (cs : List Char) : (skipWsRe cs).length ≤ cs.length := by
  induction cs with
  | nil => simp [skipWsRe, List.dropWhile]
  | cons c rest ih =>
    simp only [skipWsRe, List.dropWhile] at ih ⊢
    split
    · exact Nat.le_succ_of_le ih
    · simp

theorem findG2_length : ∀ cs g2 r, findG2 cs = some (g2, r) →
    r.length < cs.length := by
  intro cs
  induction cs with
  | nil => intro g2 r h; simp [findG2] at h
  | cons c rest ih =>
    intro g2 r h
    simp only [findG2] at h
    split at h
    · cases h; simp
    · split at h
      · cases h
      · match hr : findG2 rest with
        | none => rw [hr] at h; cases h
        | some p =>
          rw [hr] at h
          cases h
          have := ih p.1 p.2 (by rw [hr])
          simp only [List.length_cons]
          omega

theorem tryCont_length : ∀ cs g2 r, tryCont cs = some (g2, r) →
    r.length < cs.length := by
  intro cs g2 r h
  unfold tryCont at h
  split at h
  · exact absurd h (by simp)
  case h_2 r1 h1 =>
    split at h
    · exact absurd h (by simp)
    case h_2 r3 h2 =>
      split at h
      · exact absurd h (by simp)
      case h_2 r5 h3 =>
        have l1 := dropExpect_length _ _ _ h1
        have l2 := dropExpect_length _ _ _ h2
        have l3 := dropExpect_length _ _ _ h3
        have l4 := findG2_length _ _ _ h
        have s1 := skipWsRe_length r1
        have s2 := skipWsRe_length r3
        simp only [String.length_data] at l1 l2 l3
        simp [String.data] at l1 l2 l3
        omega

theorem findG1_length : ∀ cs g1 g2 r, findG1 cs = some (g1, g2, r) →
    r.length < cs.length := by
  intro cs
  induction cs with
  | nil =>
    intro g1 g2 r h
    simp only [findG1] at h
    match h1 : tryCont [] with
    | none => rw [h1] at h; cases h
    | some p =>
      have := tryCont_length _ _ _ h1
      simp at this
  | cons c rest ih =>
    intro g1 g2 r h
    simp only [findG1] at h
    split at h
    case h_1 p heq =>
      cases h
      have := tryCont_length _ _ _ heq
      exact this
    case h_2 heq =>
      split at h
      · cases h
      · match h2 : findG1 rest with
        | none => rw [h2] at h; cases h
        | some p =>
          rw [h2] at h
          cases h
          have := ih p.1 p.2.1 p.2.2 (by rw [h2])
          simp only [List.length_cons]
          omega

theorem matchBBoxAt_length : ∀ cs g1 g2 r, matchBBoxAt cs = some (g1, g2, r) →
    r.length < cs.length := by
  intro cs g1 g2 r h
  unfold matchBBoxAt at h
  split at h
  · exact absurd h (by simp)
  case h_2 r1 h1 =>
    split at h
    · exact absurd h (by simp)
    case h_2 r2 h2 =>
      have l1 := dropExpect_length _ _ _ h1
      have l2 := dropExpect_length _ _ _ h2
      have s1 := skipWsRe_length r1
      have l3 := findG1_length _ _ _ _ h
      simp [String.data] at l1 l2
      omega

/-- `re.findall`, fueled so that it evaluates definitionally: scan left to
right; after a match, resume after it (non-overlapping); otherwise advance
one character.  Every step strictly shrinks the input
(`matchBBoxAt_length`), so the initial fuel `length + 1` always suffices
(`findAllGo_fuel`). -/
def findAllGo : Nat → List Char → List (List Char × List Char)
  | 0, _ => []
  | fuel + 1, cs =>
    match matchBBoxAt cs with
    | some (g1, g2, rest) => (g1, g2) :: findAllGo fuel rest
    | none =>
      match cs with
      | [] => []
      | _ :: rest => findAllGo fuel rest

/-- `re.findall` of the bbox pattern over the whole input. -/
def findAllBBox (cs : List Char) : List (List Char × List Char) :=
  findAllGo (cs.length + 1) cs

/-- Python `str.strip()`. -/
def pyStrip (cs : List Char) : List Char :=
  ((cs.dropWhile pyWsRe).reverse.dropWhile pyWsRe).reverse

/-- Python `int(text)` on a stripped coordinate token: optional sign then
nonempty digits; `none` models `ValueError`. -/
def pyIntParse (cs : List Char) : Option Int :=
  match cs with
  | '-' :: r =>
    if r ≠ [] ∧ r.all Char.isDigit then some (-(digitsToNat r : Int)) else none
  | '+' :: r =>
    if r ≠ [] ∧ r.all Char.isDigit then some ((digitsToNat r : Int)) else none
  | _ =>
    if cs ≠ [] ∧ cs.all Char.isDigit then some ((digitsToNat cs : Int)) else none

/-- The regex extraction stage (`qwen_utils.py` lines 143-153): build a
record per match; `int(x.strip())` on each comma-separated coordinate of
the first group; a `ValueError` there escapes the whole `try` block. -/
def regexRecords (cs : List Char) : Except PyErr (List PyVal) :=
  (findAllBBox cs).mapM fun m => do
    let coords ← (splitOnChar ',' m.1).mapM fun t =>
      match pyIntParse (pyStrip t) with
      | some z => Except.ok (PyVal.num (.ofInt z))
      | none => Except.error (PyErr.valueError "invalid literal for int() with base 10")
    Except.ok (PyVal.obj [("bbox_2d", .arr coords), ("text_content", .str (String.mk m.2))])

/-! ### `ast.literal_eval`

Modelled for the literal sublanguage a detection payload can take: lists,
dicts with string keys, single- or double-quoted strings, (signed) int and
float literals, `True`/`False`/`None`.  Tokens are shared with the JSON
parser; the lexical rules differ (quote characters, escape handling,
keyword spelling, number grammar). -/

/-- Keyword values of Python literals. -/
def pyWordVal (s : String) : Option PyVal :=
  if s = "True" then some (.bool true)
  else if s = "False" then some (.bool false)
  else if s = "None" then some .null
  else none

/-- Shared exponent-and-rest handling for Python float literals: `cs` is
what follows `e`/`E`; the whole remaining input must be the exponent. -/
def pyNumExp (m : Nat) (scale : Nat) (neg : Bool) (cs : List Char) : Option PyQ :=
  match parseExpDigits cs with
  | none => none
  | some e =>
    let v := PyQ.scientific m (e - scale)
    some (if neg then v.neg else v)

/-- Python int/float literal grammar on a maximal numeric run:
`[+-]? ( digits ( . digits* )? | . digits+ ) ( [eE] [+-]? digits+ )?`;
a plain integer with a redundant leading zero is a `SyntaxError`. -/
def pyNumFromRun (cs : List Char) : Option PyQ :=
  let (neg, cs1) := match cs with
    | '-' :: r => (true, r)
    | '+' :: r => (false, r)
    | _ => (false, cs)
  let ip := cs1.takeWhile Char.isDigit
  let r1 := cs1.dropWhile Char.isDigit
  match r1 with
  | [] =>
    if ip.isEmpty then none
    else if 1 < ip.length ∧ ip.head? = some '0' then none
    else
      let v := PyQ.ofInt (digitsToNat ip)
      some (if neg then v.neg else v)
  | '.' :: r2 =>
    let fp := r2.takeWhile Char.isDigit
    let r3 := r2.dropWhile Char.isDigit
    if ip.isEmpty ∧ fp.isEmpty then none
    else
      match r3 with
      | [] =>
        let v := PyQ.scientific (digitsToNat (ip ++ fp)) (-(fp.length : Int))
        some (if neg then v.neg else v)
      | 'e' :: r4 => pyNumExp (digitsToNat (ip ++ fp)) fp.length neg r4
      | 'E' :: r4 => pyNumExp (digitsToNat (ip ++ fp)) fp.length neg r4
      | _ => none
  | 'e' :: r2 =>
    if ip.isEmpty then none else pyNumExp (digitsToNat ip) 0 neg r2
  | 'E' :: r2 =>
    if ip.isEmpty then none else pyNumExp (digitsToNat ip) 0 neg r2
  | _ => none

/-- Tokenizer state for Python literals; strings carry their quote
character. -/
inductive LSt
  | ltop (acc : List JTok)
  | linstr (acc : List JTok) (q : Char) (cur : List Char)
  | lesc (acc : List JTok) (q : Char) (cur : List Char)
  | linnum (acc : List JTok) (cur : List Char)
  | linword (acc : List JTok) (cur : List Char)
  | lfail

/-- One literal-tokenizer step from the `ltop` state. -/
def lTopStep (acc : List JTok) (c : Char) : LSt :=
  if jsonWsChar c then .ltop acc
  else if c = '\x7b' then .ltop (.lbrace :: acc)
  else if c = '\x7d' then .ltop (.rbrace :: acc)
  else if c = '[' then .ltop (.lbrack :: acc)
  else if c = ']' then .ltop (.rbrack :: acc)
  else if c = ':' then .ltop (.colon :: acc)
  else if c = ',' then .ltop (.comma :: acc)
  else if c = '"' ∨ c = '\x27' then .linstr acc c []
  else if numRunChar c then .linnum acc [c]
  else if c.isAlpha then .linword acc [c]
  else .lfail

/-- One literal-tokenizer step.  An unrecognised escape keeps the
backslash (Python behaviour); a raw newline inside a string literal is a
`SyntaxError`. -/
def lStep (st : LSt) (c : Char) : LSt :=
  match st with
  | .ltop acc => lTopStep acc c
  | .linstr acc q cur =>
    if c = q then .ltop (.lit (.str (String.mk cur.reverse)) :: acc)
    else if c = '\\' then .lesc acc q cur
    else if c = '\n' then .lfail
    else .linstr acc q (c :: cur)
  | .lesc acc q cur =>
    if c = '"' then .linstr acc q ('"' :: cur)
    else if c = '\x27' then .linstr acc q ('\x27' :: cur)
    else if c = '\\' then .linstr acc q ('\\' :: cur)
    else if c = 'n' then .linstr acc q ('\n' :: cur)
    else if c = 'r' then .linstr acc q ('\r' :: cur)
    else if c = 't' then .linstr acc q ('\t' :: cur)
    else if c = 'b' then .linstr acc q ('\x08' :: cur)
    else if c = 'f' then .linstr acc q ('\x0c' :: cur)
    else if c = '\n' then .lfail
    else .linstr acc q (c :: '\\' :: cur)
  | .linnum acc cur =>
    if numRunChar c then .linnum acc (c :: cur)
    else
      match pyNumFromRun cur.reverse with
      | some q => lTopStep (.lit (.num q) :: acc) c
      | none => .lfail
  | .linword acc cur =>
    if c.isAlpha then .linword acc (c :: cur)
    else
      match pyWordVal (String.mk cur.reverse) with
      | some v => lTopStep (.lit v :: acc) c
      | none => .lfail
  | .lfail => .lfail

/-- Finish literal tokenizing at end of input. -/
def lFinish : LSt → Option (List JTok)
  | .ltop acc => some acc.reverse
  | .linnum acc cur =>
    (pyNumFromRun cur.reverse).map fun q => (JTok.lit (.num q) :: acc).reverse
  | .linword acc cur =>
    (pyWordVal (String.mk cur.reverse)).map fun v => (JTok.lit v :: acc).reverse
  | _ => none

/-- Tokenize a Python literal expression. -/
def litTokenize (s : String) : Option (List JTok) :=
  lFinish (s.data.foldl lStep (.ltop []))

/-- Models `ast.literal_eval` on the payload sublanguage; `none` models
the exceptions it can raise (`SyntaxError`, `ValueError`). -/
def pyLiteralEval (s : String) : Option PyVal :=
  match litTokenize s with
  | none => none
  | some tks =>
    match parseVal (tks.length + 1) tks with
    | some (v, []) => some v
    | _ => none

/-- The literal-tokenizer states reachable from the start state: a string
in progress always carries an actual quote character, never a newline. -/
def lStOK : LSt → Bool
  | .linstr _ q _ => q = '"' || q = '\x27'
  | .lesc _ q _ => q = '"' || q = '\x27'
  | _ => true

/-! ### The parsing chain and the record-processing loop -/

/-- Which stage of the fallback chain produced the parsed value. -/
inductive ParseStage
  | viaJson | viaRegex | viaLiteral | failed
deriving DecidableEq, Repr

/-- The fallback chain applied to the cleaned payload (`qwen_utils.py`
lines 132-164): `json.loads`; on `JSONDecodeError` the regex extraction;
if that raises (`int('')`), `ast.literal_eval`; if that also fails, no
value (the function returns the unannotated image). -/
def chainParse (cleaned : String) : Option PyVal × ParseStage :=
  match jsonLoads cleaned with
  | some v => (some v, .viaJson)
  | none =>
    match regexRecords cleaned.data with
    | .ok recs => (some (.arr recs), .viaRegex)
    | .error _ =>
      match pyLiteralEval cleaned with
      | some v => (some v, .viaLiteral)
      | none => (none, .failed)

/-- Every character that has the Python digit property is an ASCII decimal
digit (true of all ASCII strings; false for the superscript digits). -/
def asciiDigitsOnly (s : String) : Bool :=
  s.data.all fun c => !pyCharIsDigit c || c.isDigit

/-- Wrap a payload in an enclosing code fence: opener line, content,
closer. -/
def wrapFence (p : String) : String := "\x60\x60\x60json\n" ++ p ++ "\n\x60\x60\x60"

/-- `parse_json` then `replace(':=', ':')` (lines 122 and 136). -/
def cleanedOf (response : String) : String :=
  String.mk (replaceColonEq (parse_json response).data)

/-- The parsed record list obtained from a raw model response
(`parsed_boxes` in the source), together with the stage that produced
it. -/
def parsedBoxesOf (response : String) : Option PyVal × ParseStage :=
  chainParse (cleanedOf response)

/-! ### The record-processing loop (`qwen_utils.py` lines 167-199)

Per record: validate `bbox_2d` (present, a list, length at least 4 — the
source checks `len(...) < 4`, so longer lists pass and only their first
four components are used); convert normalized to absolute coordinates with
`int(b[i]/input_dim * dim)`; swap to order the corners; draw the
rectangle; then, when `text_content` is present and truthy, translate and
draw it, falling back to the original text if translation (or drawing the
translation) raises.  Any exception escaping a record — e.g. a `TypeError`
from a non-numeric bbox component — aborts the loop; the outer handler
(line 201) catches it and the image (with the draws made so far) is still
returned. -/

/-- Substring test on character lists (Python `needle in hay` for
strings). -/
def listHasInfix : List Char → List Char → Bool
  | hay, needle =>
    if listStartsWith needle hay then true
    else
      match hay with
      | [] => false
      | _ :: rest => listHasInfix rest needle

/-- Python `in` for a string key against a value: dict key test, substring
test, list membership; `TypeError` on non-containers. -/
def pyContains (v : PyVal) (k : String) : Except PyErr Bool :=
  match v with
  | .obj kvs => .ok (kvs.any fun kv => kv.1 = k)
  | .str s => .ok (listHasInfix s.data k.data)
  | .arr xs => .ok (xs.any fun x => match x with
      | .str t => t = k
      | _ => false)
  | _ => .error (.typeError "argument of type is not iterable")

/-- Python `v[k]` for a string subscript. -/
def pyGetItem (v : PyVal) (k : String) : Except PyErr PyVal :=
  match v with
  | .obj kvs =>
    match kvs.find? fun kv => kv.1 = k with
    | some kv => .ok kv.2
    | none => .error (.other "KeyError")
  | _ => .error (.typeError "subscript with a string key")

/-- Python truthiness of a value. -/
def pyTruthy : PyVal → Bool
  | .null => false
  | .bool b => b
  | .num q => !q.isZero
  | .str s => !s.isEmpty
  | .arr xs => !xs.isEmpty
  | .obj kvs => !kvs.isEmpty

/-- A value usable in arithmetic (`int` / `float` / `bool`); anything else
raises `TypeError` when divided. -/
def asNum : PyVal → Option PyQ
  | .num q => some q
  | .bool b => some (.ofInt (if b then 1 else 0))
  | _ => none

/-- Image and model-input dimensions used by `plot_text_bounding_boxes`. -/
structure PlotCfg where
  input_width : Int
  input_height : Int
  width : Int
  height : Int
deriving DecidableEq, Repr

/-- What was drawn for one accepted record: the rectangle corners, and the
drawn text with its anchor, if any. -/
structure RecDraw where
  rect : Int × Int × Int × Int
  textDrawn : Option (Int × Int × String)
deriving DecidableEq, Repr

/-- Iterating over `parsed_boxes`: a list yields its elements, a string
its characters, a dict its keys; other values raise `TypeError`. -/
def iterTargets : PyVal → Except PyErr (List PyVal)
  | .arr xs => .ok xs
  | .str s => .ok (s.data.map fun c => .str (String.mk [c]))
  | .obj kvs => .ok (kvs.map fun kv => .str kv.1)
  | _ => .error (.typeError "object is not iterable")

/-- `int(b/input_dim * dim)` (lines 176-179). -/
def absCoord (b : PyQ) (inputDim dim : Int) : Int :=
  ((b.div (.ofInt inputDim)).mul (.ofInt dim)).trunc

/-- Process one record: `.ok none` = skipped by validation (`continue`),
`.ok (some d)` = drawn, `.error e` = an exception that aborts the page's
loop. -/
def processRecord (key : Option String) (svc : String → Except PyErr String)
    (cfg : PlotCfg) (b : PyVal) : Except PyErr (Option RecDraw) := do
  let has ← pyContains b "bbox_2d"
  if !has then
    return none
  else
    let bb ← pyGetItem b "bbox_2d"
    match bb with
    | .arr comps =>
      match comps with
      | c0 :: c1 :: c2 :: c3 :: _ =>
        match asNum c0, asNum c1, asNum c2, asNum c3 with
        | some q0, some q1, some q2, some q3 =>
          if cfg.input_height = 0 ∨ cfg.input_width = 0 then
            .error (.other "ZeroDivisionError: division by zero")
          else
            let absY1 := absCoord q1 cfg.input_height cfg.height
            let absX1 := absCoord q0 cfg.input_width cfg.width
            let absY2 := absCoord q3 cfg.input_height cfg.height
            let absX2 := absCoord q2 cfg.input_width cfg.width
            let (x1, x2) := if absX2 < absX1 then (absX2, absX1) else (absX1, absX2)
            let (y1, y2) := if absY2 < absY1 then (absY2, absY1) else (absY1, absY2)
            let hasT ← pyContains b "text_content"
            if hasT then do
              let tv ← pyGetItem b "text_content"
              if pyTruthy tv then
                match tv with
                | .str t =>
                  match translateWithAPI key svc t with
                  | .ok (tr, _) =>
                    .ok (some ⟨(x1, y1, x2, y2), some (x1, y2, tr)⟩)
                  | .error _ =>
                    .ok (some ⟨(x1, y1, x2, y2), some (x1, y2, t)⟩)
                | _ => .error (.typeError "text must be a string")
              else
                .ok (some ⟨(x1, y1, x2, y2), none⟩)
            else
              .ok (some ⟨(x1, y1, x2, y2), none⟩)
        | _, _, _, _ => .error (.typeError "unsupported operand type for /")
      | _ => return none
    | _ => return none

/-- The `for` loop over the parsed records: results in order, stopping at
the first exception (whose records before it keep their draws). -/
def processLoop (key : Option String) (svc : String → Except PyErr String)
    (cfg : PlotCfg) : List PyVal → List (Option RecDraw) × Option PyErr
  | [] => ([], none)
  | b :: rest =>
    match processRecord key svc cfg b with
    | .error e => ([], some e)
    | .ok r =>
      let (rs, e) := processLoop key svc cfg rest
      (r :: rs, e)

/-- A record is skipped by the validation at line 171: `bbox_2d` absent,
not a list, or with fewer than 4 components (checked on dicts, the shape
the parser produces). -/
def skipShape (b : PyVal) : Bool :=
  match b with
  | .obj kvs =>
    match kvs.find? fun kv => kv.1 = "bbox_2d" with
    | none => true
    | some kv =>
      match kv.2 with
      | .arr comps => comps.length < 4
      | _ => true
  | _ => false

/-- The record's `text_content`, if present and truthy, is a string (so
that drawing cannot raise). -/
def textOK (kvs : List (String × PyVal)) : Bool :=
  match kvs.find? fun kv => kv.1 = "text_content" with
  | none => true
  | some kv => !pyTruthy kv.2 || (match kv.2 with | .str _ => true | _ => false)

/-- A well-formed record: a dict whose `bbox_2d` is a list of at least 4
numeric components, and whose `text_content` (when present and truthy) is
a string. -/
def goodShape (b : PyVal) : Bool :=
  match b with
  | .obj kvs =>
    (match kvs.find? fun kv => kv.1 = "bbox_2d" with
     | some kv =>
       match kv.2 with
       | .arr comps => 4 ≤ comps.length && comps.all fun c => (asNum c).isSome
       | _ => false
     | none => false) && textOK kvs
  | _ => false

/-- `plot_text_bounding_boxes` (lines 99-207), as the draws it performs on
the page image: the drawn records in order, plus a flag telling whether the
outer `except` handler fired.  In every case a (possibly unannotated,
possibly partially annotated) image is returned — the function never
raises. -/
def plot_text_bounding_boxes (key : Option String)
    (svc : String → Except PyErr String) (cfg : PlotCfg) (response : String) :
    List RecDraw × Bool :=
  match (parsedBoxesOf response).1 with
  | none => ([], false)
  | some v =>
    match iterTargets v with
    | .error _ => ([], true)
    | .ok records =>
      let (rs, e) := processLoop key svc cfg records
      (rs.filterMap id, e.isSome)


/-! ### Concrete fixtures used by witnesses and counterexamples -/

/-- A translation service that echoes its input. -/
def svcEcho : String → Except PyErr String := fun s => .ok s

/-- A translation service whose remote call always raises. -/
def svcDown : String → Except PyErr String := fun _ => .error (.other "api down")

/-- A demo plot configuration: model input 1000×1000, page image 500×800. -/
def cfgDemo : PlotCfg := ⟨1000, 1000, 500, 800⟩

/-- A record literal with a 4-component numeric bbox and a text. -/
def mkRec (q0 q1 q2 q3 : PyQ) (t : String) : PyVal :=
  .obj [("bbox_2d", .arr [.num q0, .num q1, .num q2, .num q3]),
        ("text_content", .str t)]

/-- A record whose bbox has five components. -/
def rec5Demo : PyVal :=
  .obj [("bbox_2d", .arr [.num (.ofInt 100), .num (.ofInt 200), .num (.ofInt 300),
          .num (.ofInt 400), .num (.ofInt 9)]),
        ("text_content", .str "x")]

/-- A record with no bbox at all. -/
def recNoBox : PyVal := .obj [("text_content", .str "no box")]

/-- A well-formed detection payload whose text contains a triple
backtick. -/
def fencePayload : String :=
  "[\x7b\"bbox_2d\": [1,2,3,4], \"text_content\": \"a\x60\x60\x60b\"\x7d]"

/-- A payload with a vertical tab inside its text content: fence-free and
CR-free, yet not wrap-invariant, because `splitlines` breaks at the VT and
the newline-rejoin turns it into a line feed. -/
def vtPayload : String := "z \"bbox_2d\": [1], \"text_content\": \"a\x0bb\""

/-- A response on which every parsing strategy fails: not JSON, the regex
matches with an empty coordinate group (so `int` raises), and the cleaned
payload is not a Python literal. -/
def respAllFail : String := "oops \"bbox_2d\": [], \"text_content\": \"x\""

/-! # Theorems

First the order-theoretic groundwork for the natural-sort model, then the
invariance lemmas for the parsing chain, then one theorem per claim. -/

theorem natCmpO_swap (m n : Nat) : natCmpO m n = (natCmpO n m).swap := by
  unfold natCmpO
  split_ifs <;> simp_all [Ordering.swap] <;> omega

theorem natCmpO_eq_iff (m n : Nat) : natCmpO m n = .eq ↔ m = n := by
  unfold natCmpO
  split_ifs <;> simp_all <;> omega

theorem natCmpO_lt_iff (m n : Nat) : natCmpO m n = .lt ↔ m < n := by
  unfold natCmpO
  split_ifs <;> simp_all <;> omega

theorem charCmpO_swap (a b : Char) : charCmpO a b = (charCmpO b a).swap := by
  unfold charCmpO
  rcases lt_trichotomy a b with h | h | h <;>
    simp_all [Ordering.swap, lt_asymm, not_lt_of_lt]

theorem charCmpO_eq_iff (a b : Char) : charCmpO a b = .eq ↔ a = b := by
  unfold charCmpO
  split_ifs with h1 h2
  · simp [ne_of_lt h1]
  · simp [ne_of_gt h2]
  · simp only [true_iff]
    exact le_antisymm (not_lt.mp h2) (not_lt.mp h1)

theorem charCmpO_lt_iff (a b : Char) : charCmpO a b = .lt ↔ a < b := by
  unfold charCmpO
  rcases lt_trichotomy a b with h | h | h <;>
    simp_all [lt_asymm, not_lt_of_lt, lt_irrefl]

theorem lexCmp_swap (cmp : α → α → Ordering)
    (hs : ∀ a b, cmp a b = (cmp b a).swap) :
    ∀ x y, lexCmp cmp x y = (lexCmp cmp y x).swap := by
  intro x
  induction x with
  | nil => intro y; cases y <;> simp [lexCmp, Ordering.swap]
  | cons a as ih =>
    intro y
    cases y with
    | nil => simp [lexCmp, Ordering.swap]
    | cons b bs =>
      simp only [lexCmp]
      rw [hs a b]
      cases cmp b a <;> simp [Ordering.swap, ih bs]

theorem lexCmp_eq_iff (cmp : α → α → Ordering)
    (he : ∀ a b, cmp a b = .eq ↔ a = b) :
    ∀ x y, lexCmp cmp x y = .eq ↔ x = y := by
  intro x
  induction x with
  | nil => intro y; cases y <;> simp [lexCmp]
  | cons a as ih =>
    intro y
    cases y with
    | nil => simp [lexCmp]
    | cons b bs =>
      simp only [lexCmp]
      cases hab : cmp a b with
      | eq =>
        have := (he a b).mp hab
        subst this
        simp [ih bs]
      | lt =>
        simp only [List.cons.injEq]
        constructor
        · intro h; cases h
        · rintro ⟨h1, -⟩
          subst h1
          rw [(he a a).mpr rfl] at hab
          cases hab
      | gt =>
        simp only [List.cons.injEq]
        constructor
        · intro h; cases h
        · rintro ⟨h1, -⟩
          subst h1
          rw [(he a a).mpr rfl] at hab
          cases hab

theorem lexCmp_lt_trans (cmp : α → α → Ordering)
    (he : ∀ a b, cmp a b = .eq ↔ a = b)
    (ht : ∀ a b c, cmp a b = .lt → cmp b c = .lt → cmp a c = .lt) :
    ∀ x y z, lexCmp cmp x y = .lt → lexCmp cmp y z = .lt → lexCmp cmp x z = .lt := by
  intro x
  induction x with
  | nil =>
    intro y z hxy hyz
    cases y with
    | nil => simp [lexCmp] at hxy
    | cons b bs =>
      cases z with
      | nil => simp [lexCmp] at hyz
      | cons c cs => simp [lexCmp]
  | cons a as ih =>
    intro y z hxy hyz
    cases y with
    | nil => simp [lexCmp] at hxy
    | cons b bs =>
      cases z with
      | nil => simp [lexCmp] at hyz
      | cons c cs =>
        simp only [lexCmp] at hxy hyz ⊢
        cases hab : cmp a b with
        | lt =>
          rw [hab] at hxy
          cases hbc : cmp b c with
          | lt => rw [ht a b c hab hbc]
          | eq =>
            have := (he b c).mp hbc
            subst this
            rw [hab]
          | gt => rw [hbc] at hyz; cases hyz
        | eq =>
          have := (he a b).mp hab
          subst this
          rw [hab] at hxy
          cases hbc : cmp a c with
          | lt => rfl
          | eq =>
            rw [hbc] at hyz
            exact ih bs cs hxy hyz
          | gt => rw [hbc] at hyz; cases hyz
        | gt => rw [hab] at hxy; cases hxy

theorem strCmpO_swap (s t : String) : strCmpO s t = (strCmpO t s).swap :=
  lexCmp_swap charCmpO charCmpO_swap s.data t.data

theorem string_data_inj : ∀ {s t : String}, s.data = t.data → s = t := by
  intro s t h
  cases s; cases t; exact congrArg String.mk h

theorem strCmpO_eq_iff (s t : String) : strCmpO s t = .eq ↔ s = t := by
  unfold strCmpO charsCmpO
  rw [lexCmp_eq_iff charCmpO charCmpO_eq_iff]
  exact ⟨string_data_inj, fun h => by rw [h]⟩

theorem strCmpO_lt_trans (s t u : String) :
    strCmpO s t = .lt → strCmpO t u = .lt → strCmpO s u = .lt :=
  lexCmp_lt_trans charCmpO charCmpO_eq_iff
    (fun a b c h1 h2 =>
      (charCmpO_lt_iff a c).mpr
        (lt_trans ((charCmpO_lt_iff a b).mp h1) ((charCmpO_lt_iff b c).mp h2)))
    s.data t.data u.data

theorem totTokCmp_swap (a b : NTok) : totTokCmp a b = (totTokCmp b a).swap := by
  cases a <;> cases b <;>
    first
    | exact natCmpO_swap _ _
    | exact strCmpO_swap _ _
    | rfl

theorem totTokCmp_eq_iff (a b : NTok) : totTokCmp a b = .eq ↔ a = b := by
  cases a <;> cases b <;>
    simp [totTokCmp, natCmpO_eq_iff, strCmpO_eq_iff, Ordering.swap]

theorem totTokCmp_lt_trans (a b c : NTok) :
    totTokCmp a b = .lt → totTokCmp b c = .lt → totTokCmp a c = .lt := by
  cases a <;> cases b <;> cases c <;>
    simp [totTokCmp, natCmpO_lt_iff] <;>
    first
    | omega
    | exact strCmpO_lt_trans _ _ _

theorem totKeyCmp_swap (x y : List NTok) : totKeyCmp x y = (totKeyCmp y x).swap :=
  lexCmp_swap totTokCmp totTokCmp_swap x y

theorem totKeyCmp_lt_trans (x y z : List NTok) :
    totKeyCmp x y = .lt → totKeyCmp y z = .lt → totKeyCmp x z = .lt :=
  lexCmp_lt_trans totTokCmp totTokCmp_eq_iff totTokCmp_lt_trans x y z

theorem totKeyCmp_eq_iff (x y : List NTok) : totKeyCmp x y = .eq ↔ x = y :=
  lexCmp_eq_iff totTokCmp totTokCmp_eq_iff x y

theorem keyLE_iff (x y : List NTok) : keyLE x y = true ↔ totKeyCmp x y ≠ .gt := by
  unfold keyLE
  cases totKeyCmp x y <;> simp

theorem keyLE_total (x y : List NTok) : keyLE x y = true ∨ keyLE y x = true := by
  rw [keyLE_iff, keyLE_iff]
  by_cases h : totKeyCmp x y = .gt
  · right
    intro hy
    have sw := totKeyCmp_swap x y
    rw [h, hy] at sw
    cases sw
  · left; exact h

theorem keyLE_trans (x y z : List NTok) :
    keyLE x y = true → keyLE y z = true → keyLE x z = true := by
  rw [keyLE_iff, keyLE_iff, keyLE_iff]
  intro hxy hyz hxz
  cases hxy2 : totKeyCmp x y with
  | gt => exact hxy hxy2
  | eq =>
    have he := (totKeyCmp_eq_iff x y).mp hxy2
    subst he
    exact hyz hxz
  | lt =>
    cases hyz2 : totKeyCmp y z with
    | gt => exact hyz hyz2
    | eq =>
      have he := (totKeyCmp_eq_iff y z).mp hyz2
      subst he
      rw [hxy2] at hxz
      cases hxz
    | lt =>
      have h3 := totKeyCmp_lt_trans x y z hxy2 hyz2
      rw [h3] at hxz
      cases hxz

instance : IsTotal (String × List NTok) keyPairLE :=
  ⟨fun a b => keyLE_total a.2 b.2⟩

instance : IsTrans (String × List NTok) keyPairLE :=
  ⟨fun a b c => keyLE_trans a.2 b.2 c.2⟩


/-! ### Structure of natural-sort keys -/

theorem mk_data (l : List Char) : (String.mk l).data = l := rfl

theorem mk_isEmpty (l : List Char) : (String.mk l).isEmpty = l.isEmpty := by
  cases l with
  | nil => rfl
  | cons c cs =>
    have h : ¬(String.mk (c :: cs)).isEmpty = true := by
      rw [String.isEmpty_iff]
      intro h
      have := congrArg String.data h
      simp at this
    simp only [List.isEmpty]
    exact Bool.of_not_eq_true h

theorem reSplitGo_runsOK : ∀ (cs acc : List Char) (inD : Bool),
    (inD = true → acc ≠ [] ∧ acc.all reDigitChar = true) →
    (inD = false → acc.all (fun c => !reDigitChar c) = true) →
    runsOK (reSplitGo cs acc inD) inD = true := by
  intro cs
  induction cs with
  | nil =>
    intro acc inD h1 h0
    cases inD with
    | true =>
      obtain ⟨hne, hall⟩ := h1 rfl
      simp only [reSplitGo, if_true]
      rw [runsOK, Bool.and_eq_true]
      constructor
      · rw [Bool.and_eq_true]
        constructor
        · rw [mk_isEmpty]
          simp [hne]
        · simpa using hall
      · decide
    | false =>
      have hall := h0 rfl
      simp only [reSplitGo, Bool.false_eq_true, if_false]
      rw [runsOK, Bool.and_eq_true]
      exact ⟨by simpa using hall, rfl⟩
  | cons c rest ih =>
    intro acc inD h1 h0
    cases hd : reDigitChar c with
    | true =>
      cases inD with
      | true =>
        obtain ⟨hne, hall⟩ := h1 rfl
        simp only [reSplitGo, hd, if_true]
        refine ih (c :: acc) true (fun _ => ⟨by simp, ?_⟩) (by simp)
        simp only [List.all_cons, Bool.and_eq_true]
        exact ⟨hd, hall⟩
      | false =>
        have hall := h0 rfl
        simp only [reSplitGo, hd, if_true, Bool.false_eq_true, if_false]
        rw [runsOK, Bool.and_eq_true]
        constructor
        · simpa using hall
        · exact ih [c] true (fun _ => ⟨by simp, by simp [hd]⟩) (by simp)
    | false =>
      cases inD with
      | true =>
        obtain ⟨hne, hall⟩ := h1 rfl
        simp only [reSplitGo, hd, Bool.false_eq_true, if_false, if_true]
        rw [runsOK, Bool.and_eq_true]
        constructor
        · rw [Bool.and_eq_true]
          constructor
          · rw [mk_isEmpty]
            simp [hne]
          · simpa using hall
        · exact ih [c] false (by simp) (fun _ => by simp [hd])
      | false =>
        simp only [reSplitGo, hd, Bool.false_eq_true, if_false]
        refine ih (c :: acc) false (by simp) (fun _ => ?_)
        have hall := h0 rfl
        simp only [List.all_cons, Bool.and_eq_true]
        exact ⟨by simp [hd], hall⟩

theorem data_nil_eq (t : String) (h : t.data = []) : t = "" :=
  string_data_inj (by rw [h])

theorem isEmpty_false_data (t : String) (he : t.isEmpty = false) :
    t.data ≠ [] := by
  intro h
  rw [data_nil_eq t h] at he
  exact absurd he (by decide)

/-- Every character with the digit property in a run of `\d` characters is
an ASCII digit, so the digit-run tokens convert with `int`. -/
theorem keyTok_digit_run (t : String) (hne : t.isEmpty = false)
    (hall : t.data.all reDigitChar = true) :
    keyTok t = some (Sum.inl (digitsToNat t.data)) := by
  unfold keyTok pyStrIsDigit pyInt
  have h1 : t.data.all pyCharIsDigit = true := by
    rw [List.all_eq_true] at hall ⊢
    intro c hc
    have hcd : c.isDigit = true := hall c hc
    simp [pyCharIsDigit, hcd]
  have h2 : t.data.all Char.isDigit = true := by
    rw [List.all_eq_true] at hall ⊢
    exact hall
  simp [hne, h1, h2]

/-- If a token of a `\d`-free run maps under `keyTok`, it maps to a
lowered string: an `isdigit`-true token without ASCII digits makes `int`
raise. -/
theorem keyTok_text_some (t : String)
    (hall : t.data.all (fun c => !reDigitChar c) = true) (a : NTok)
    (h : keyTok t = some a) : a = Sum.inr (pyLower t) := by
  unfold keyTok at h
  cases hsd : pyStrIsDigit t with
  | false =>
    rw [hsd] at h
    simp at h
    exact h.symm
  | true =>
    rw [hsd] at h
    unfold pyStrIsDigit at hsd
    rw [Bool.and_eq_true] at hsd
    have hne : t.isEmpty = false := by
      cases he : t.isEmpty with
      | false => rfl
      | true => rw [he] at hsd; simp at hsd
    unfold pyInt at h
    have hnot : ¬(!t.isEmpty && t.data.all Char.isDigit) = true := by
      rw [Bool.and_eq_true]
      rintro ⟨-, hdig⟩
      cases hx : t.data with
      | nil => exact absurd hx (isEmpty_false_data t hne)
      | cons b l =>
        have ha := List.all_eq_true.mp hall b (by rw [hx]; simp)
        have hb := List.all_eq_true.mp hdig b (by rw [hx]; simp)
        simp only [reDigitChar] at ha
        rw [hb] at ha
        exact absurd ha (by decide)
    rw [if_neg hnot] at h
    simp at h

/-- The `isdigit`-false text tokens map to lowered strings. -/
theorem keyTok_text_run (t : String)
    (hgood : ∀ c ∈ t.data, pyCharIsDigit c = true → c.isDigit = true)
    (hall : t.data.all (fun c => !reDigitChar c) = true) :
    keyTok t = some (Sum.inr (pyLower t)) := by
  unfold keyTok
  have hsd : pyStrIsDigit t = false := by
    unfold pyStrIsDigit
    cases he : t.isEmpty with
    | true => simp
    | false =>
      simp only [he, Bool.not_false, Bool.true_and]
      cases hx : t.data with
      | nil => exact absurd hx (isEmpty_false_data t he)
      | cons b l =>
        simp only [List.all_cons, Bool.and_eq_false_iff]
        left
        have hd : reDigitChar b = false := by
          have := List.all_eq_true.mp hall b (by rw [hx]; simp)
          simpa using this
        cases hp : pyCharIsDigit b with
        | false => rfl
        | true =>
          have hb := hgood b (by rw [hx]; simp) hp
          simp only [reDigitChar] at hd
          rw [hb] at hd
          exact absurd hd (by decide)
  simp [hsd]

theorem mapM_runs_alt : ∀ (ts : List String) (inD : Bool) (k : List NTok),
    runsOK ts inD = true →
    ts.mapM keyTok = some k →
    altKey k inD = true := by
  intro ts
  induction ts with
  | nil =>
    intro inD k _ hm
    rw [List.mapM_nil] at hm
    simp at hm
    subst hm
    rfl
  | cons t ts ih =>
    intro inD k hr hm
    rw [List.mapM_cons] at hm
    cases hkt : keyTok t with
    | none => rw [hkt] at hm; simp at hm
    | some a =>
      rw [hkt] at hm
      cases hts : ts.mapM keyTok with
      | none => rw [hts] at hm; simp at hm
      | some xs =>
        rw [hts] at hm
        simp at hm
        subst hm
        cases inD with
        | true =>
          simp only [runsOK, Bool.and_eq_true] at hr
          rw [keyTok_digit_run t (by simpa using hr.1.1) hr.1.2] at hkt
          cases hkt
          show altKey xs false = true
          exact ih false xs hr.2 hts
        | false =>
          simp only [runsOK, Bool.and_eq_true] at hr
          have he := keyTok_text_some t hr.1 a hkt
          subst he
          show altKey xs true = true
          exact ih true xs hr.2 hts

/-- Every token produced by the split draws its characters from the input
(or the accumulator). -/
theorem reSplitGo_chars : ∀ (cs acc : List Char) (inD : Bool) (t : String),
    t ∈ reSplitGo cs acc inD → ∀ c ∈ t.data, c ∈ cs ∨ c ∈ acc := by
  intro cs
  induction cs with
  | nil =>
    intro acc inD t ht c hc
    right
    cases inD with
    | true =>
      simp only [reSplitGo, if_true] at ht
      simp at ht
      rcases ht with ht | ht
      · rw [ht, mk_data] at hc
        exact List.mem_reverse.mp hc
      · rw [ht] at hc
        simp at hc
    | false =>
      simp only [reSplitGo, Bool.false_eq_true, if_false] at ht
      simp at ht
      rw [ht, mk_data] at hc
      exact List.mem_reverse.mp hc
  | cons a rest ih =>
    intro acc inD t ht c hc
    cases hd : reDigitChar a with
    | true =>
      cases inD with
      | true =>
        simp only [reSplitGo, hd, if_true] at ht
        rcases ih (a :: acc) true t ht c hc with h | h
        · left; exact List.mem_cons_of_mem a h
        · rcases List.mem_cons.mp h with h | h
          · left; simp [h]
          · right; exact h
      | false =>
        simp only [reSplitGo, hd, if_true, Bool.false_eq_true, if_false,
          List.mem_cons] at ht
        rcases ht with ht | ht
        · rw [ht, mk_data] at hc
          right
          exact List.mem_reverse.mp hc
        · rcases ih [a] true t ht c hc with h | h
          · left; exact List.mem_cons_of_mem a h
          · simp at h; left; simp [h]
    | false =>
      cases inD with
      | true =>
        simp only [reSplitGo, hd, Bool.false_eq_true, if_false, if_true,
          List.mem_cons] at ht
        rcases ht with ht | ht
        · rw [ht, mk_data] at hc
          right
          exact List.mem_reverse.mp hc
        · rcases ih [a] false t ht c hc with h | h
          · left; exact List.mem_cons_of_mem a h
          · simp at h; left; simp [h]
      | false =>
        simp only [reSplitGo, hd, Bool.false_eq_true, if_false] at ht
        rcases ih (a :: acc) false t ht c hc with h | h
        · left; exact List.mem_cons_of_mem a h
        · rcases List.mem_cons.mp h with h | h
          · left; simp [h]
          · right; exact h

/-- When every digit-property character of the input is an ASCII digit,
each token maps under `keyTok` and the key is defined. -/
theorem mapM_runs_some : ∀ (ts : List String) (inD : Bool),
    runsOK ts inD = true →
    (∀ t ∈ ts, ∀ c ∈ t.data, pyCharIsDigit c = true → c.isDigit = true) →
    (ts.mapM keyTok).isSome = true := by
  intro ts
  induction ts with
  | nil =>
    intro inD _ _
    rw [List.mapM_nil]
    rfl
  | cons t ts ih =>
    intro inD hr hg
    rw [List.mapM_cons]
    have hkt : (keyTok t).isSome = true := by
      cases inD with
      | true =>
        simp only [runsOK, Bool.and_eq_true] at hr
        rw [keyTok_digit_run t (by simpa using hr.1.1) hr.1.2]
        rfl
      | false =>
        simp only [runsOK, Bool.and_eq_true] at hr
        rw [keyTok_text_run t (hg t (by simp)) hr.1]
        rfl
    have hrest : (ts.mapM keyTok).isSome = true := by
      cases inD with
      | true =>
        simp only [runsOK, Bool.and_eq_true] at hr
        exact ih false hr.2 (fun u hu => hg u (by simp [hu]))
      | false =>
        simp only [runsOK, Bool.and_eq_true] at hr
        exact ih true hr.2 (fun u hu => hg u (by simp [hu]))
    cases hkt2 : keyTok t with
    | none => rw [hkt2] at hkt; cases hkt
    | some a =>
      cases hts : ts.mapM keyTok with
      | none => rw [hts] at hrest; cases hrest
      | some xs => simp

/-- A defined natural-sort key alternates `str`, `int`, `str`, … -/
theorem natKey_alt (s : String) (k : List NTok)
    (h : natural_sort_key s = some k) : altKey k false = true := by
  unfold natural_sort_key reSplitDigits at h
  exact mapM_runs_alt _ false k (reSplitGo_runsOK s.data [] false (by simp) (by simp)) h

/-- Two alternating keys are always comparable, and the Python comparison
agrees with the total one. -/
theorem alt_pyKeyCmp : ∀ (k j : List NTok) (inD : Bool),
    altKey k inD = true → altKey j inD = true →
    pyKeyCmp k j = some (totKeyCmp k j) := by
  intro k
  induction k with
  | nil =>
    intro j inD _ _
    cases j <;> rfl
  | cons a as ih =>
    intro j inD ha hj
    cases j with
    | nil => rfl
    | cons b bs =>
      cases inD with
      | true =>
        cases a with
        | inr sa => exact Bool.noConfusion ha
        | inl na =>
          cases b with
          | inr sb => exact Bool.noConfusion hj
          | inl nb =>
            have ha2 : altKey as false = true := ha
            have hj2 : altKey bs false = true := hj
            simp only [pyKeyCmp, pyTokCmp, totKeyCmp, lexCmp, totTokCmp]
            cases ho : natCmpO na nb with
            | eq =>
              simp only [ho]
              exact ih bs false ha2 hj2
            | lt => simp [ho]
            | gt => simp [ho]
      | false =>
        cases a with
        | inl na => exact Bool.noConfusion ha
        | inr sa =>
          cases b with
          | inl nb => exact Bool.noConfusion hj
          | inr sb =>
            have ha2 : altKey as true = true := ha
            have hj2 : altKey bs true = true := hj
            simp only [pyKeyCmp, pyTokCmp, totKeyCmp, lexCmp, totTokCmp]
            cases ho : strCmpO sa sb with
            | eq =>
              simp only [ho]
              exact ih bs true ha2 hj2
            | lt => simp [ho]
            | gt => simp [ho]


/-- The natural-sort key is defined on every string whose digit-property
characters are ASCII digits. -/
theorem natKey_defined (s : String) (h : asciiDigitsOnly s = true) :
    (natural_sort_key s).isSome = true := by
  unfold natural_sort_key reSplitDigits
  refine mapM_runs_some _ false (reSplitGo_runsOK s.data [] false (by simp) (by simp)) ?_
  intro t ht c hc hp
  rcases reSplitGo_chars s.data [] false t ht c hc with hm | hm
  · unfold asciiDigitsOnly at h
    have h2 := List.all_eq_true.mp h c hm
    rw [hp] at h2
    simpa using h2
  · simp at hm

/-! ## Claim C3 -/

/-- Claim C3, counterexample: `natural_sort_key` is not defined on every
string — on the superscript digit `"²"`, `str.isdigit` is true but `int`
raises `ValueError` (modelled by `none`), so sorting a list containing it
raises; the claim's universal "the key is defined … for any string" is
false. -/
theorem claim_C3_counterexample :
    natural_sort_key "²" = none ∧
    ¬(∀ s : String, (natural_sort_key s).isSome = true) := by
  constructor
  · decide
  · intro h
    have := h "²"
    rw [(by decide : natural_sort_key "²" = none)] at this
    cases this

/-- Claim C3 as amended: for strings whose digit-property characters are
all ASCII decimal digits, the composite key exists (alternating case-folded
text and integer runs); any two defined keys are elementwise comparable
with no `int`/`str` type error, so sorting defined-key strings never
raises; and the keys order `page_1 < page_2 < page_10` numerically, not
lexicographically. -/
theorem claim_C3_amended :
    (∀ s : String, asciiDigitsOnly s = true → (natural_sort_key s).isSome = true) ∧
    (∀ (s t : String) (ks kt : List NTok),
        natural_sort_key s = some ks → natural_sort_key t = some kt →
        pyKeyCmp ks kt = some (totKeyCmp ks kt)) ∧
    pyKeyCmp ((natural_sort_key "page_1.png").getD [])
        ((natural_sort_key "page_2.png").getD []) = some .lt ∧
    pyKeyCmp ((natural_sort_key "page_2.png").getD [])
        ((natural_sort_key "page_10.png").getD []) = some .lt ∧
    pySortedByNatKey ["page_2.png", "page_10.png", "page_1.png"] =
      some ["page_1.png", "page_2.png", "page_10.png"] := by
  refine ⟨natKey_defined, ?_, by decide, by decide, by decide⟩
  intro s t ks kt hs ht
  exact alt_pyKeyCmp ks kt false (natKey_alt s ks hs) (natKey_alt t kt ht)

/-- Witness for the amended claim C3 at concrete inputs. -/
theorem claim_C3_amended_witness :
    asciiDigitsOnly "page_3.png" = true ∧
    (natural_sort_key "page_3.png").isSome = true := by
  exact ⟨by decide, claim_C3_amended.1 "page_3.png" (by decide)⟩

/-! ## Claim C4 -/

theorem floor_sqrt_div (m n : Nat) (hn : 0 < n) :
    ⌊Real.sqrt ((m : ℝ) / (n : ℝ))⌋₊ = Nat.sqrt (m / n) := by
  have h0 : (0 : ℝ) ≤ (m : ℝ) / (n : ℝ) := by positivity
  have key : ∀ k : Nat, k ≤ ⌊Real.sqrt ((m : ℝ) / (n : ℝ))⌋₊ ↔ k ≤ Nat.sqrt (m / n) := by
    intro k
    rw [Nat.le_floor_iff (Real.sqrt_nonneg _)]
    rw [Real.le_sqrt (Nat.cast_nonneg k) h0]
    rw [Nat.le_sqrt]
    have h2 : ⌊(m : ℝ) / (n : ℝ)⌋₊ = m / n := by
      rw [Nat.floor_div_nat]
      simp
    constructor
    · intro h
      have h3 : (k * k : Nat) ≤ ⌊(m : ℝ) / (n : ℝ)⌋₊ := by
        apply Nat.le_floor
        push_cast
        calc ((k : ℝ) * k) = (k : ℝ) ^ 2 := by ring
        _ ≤ _ := h
      rw [h2] at h3
      exact h3
    · intro h
      have h3 : ((k * k : Nat) : ℝ) ≤ (m : ℝ) / (n : ℝ) := by
        rw [← h2] at h
        exact (Nat.le_floor_iff h0).mp h
      calc (k : ℝ) ^ 2 = ((k * k : Nat) : ℝ) := by push_cast; ring
      _ ≤ _ := h3
  exact le_antisymm ((key _).mp le_rfl) ((key _).mpr le_rfl)

theorem floor_mul_sqrt (d t cp : Nat) (hcp : 0 < cp) :
    ⌊(d : ℝ) * Real.sqrt ((t : ℝ) / (cp : ℝ))⌋₊ = Nat.sqrt (d * d * t / cp) := by
  have hmain : (d : ℝ) * Real.sqrt ((t : ℝ) / (cp : ℝ)) =
      Real.sqrt (((d * d * t : Nat) : ℝ) / (cp : ℝ)) := by
    have hdd : ((d * d * t : Nat) : ℝ) = (d : ℝ) ^ 2 * (t : ℝ) := by push_cast; ring
    rw [hdd, mul_div_assoc, Real.sqrt_mul (by positivity), Real.sqrt_sq (by positivity)]
  rw [hmain, floor_sqrt_div _ _ hcp]

/-- Claim C4: `smart_resize` is the identity when the pixel count is in
range; below the range both dimensions are scaled by
`sqrt(min_pixels / current_pixels)` and truncated independently; above it
both are scaled by `sqrt(max_pixels / current_pixels)` and truncated
independently. -/
theorem claim_C4 (height width mn mx : Nat)
    (hh : 0 < height) (hw : 0 < width) (hmn : 0 < mn) (hmx : mn ≤ mx) :
    (mn ≤ height * width ∧ height * width ≤ mx →
      smart_resize height width mn mx = (height, width)) ∧
    (height * width < mn →
      smart_resize height width mn mx =
        (⌊(height : ℝ) * Real.sqrt ((mn : ℝ) / ((height * width : Nat) : ℝ))⌋₊,
         ⌊(width : ℝ) * Real.sqrt ((mn : ℝ) / ((height * width : Nat) : ℝ))⌋₊)) ∧
    (mx < height * width →
      smart_resize height width mn mx =
        (⌊(height : ℝ) * Real.sqrt ((mx : ℝ) / ((height * width : Nat) : ℝ))⌋₊,
         ⌊(width : ℝ) * Real.sqrt ((mx : ℝ) / ((height * width : Nat) : ℝ))⌋₊)) := by
  have hcp : 0 < height * width := Nat.mul_pos hh hw
  refine ⟨?_, ?_, ?_⟩
  · intro h
    unfold smart_resize
    rw [if_pos h]
  · intro h
    unfold smart_resize
    rw [if_neg (by omega), if_pos h]
    rw [floor_mul_sqrt height mn (height * width) hcp,
      floor_mul_sqrt width mn (height * width) hcp]
  · intro h
    unfold smart_resize
    rw [if_neg (by omega), if_neg (by omega)]
    rw [floor_mul_sqrt height mx (height * width) hcp,
      floor_mul_sqrt width mx (height * width) hcp]

/-- Witness for claim C4 at concrete inputs: `1×1` below `min_pixels = 4`
scales to `(2, 2)`, and `2×3` inside `[4, 8]` is unchanged. -/
theorem claim_C4_witness :
    (4 ≤ 2 * 3 ∧ 2 * 3 ≤ 8 → smart_resize 2 3 4 8 = (2, 3)) ∧
    smart_resize 2 3 4 8 = (2, 3) ∧
    smart_resize 1 1 4 8 = (2, 2) := by
  have h4 : Nat.sqrt 4 = 2 := by
    have := Nat.sqrt_eq 2
    simpa using this
  refine ⟨(claim_C4 2 3 4 8 (by decide) (by decide) (by decide) (by decide)).1, ?_, ?_⟩
  · exact (claim_C4 2 3 4 8 (by decide) (by decide) (by decide) (by decide)).1 (by decide)
  · have h1 : smart_resize 1 1 4 8 = (Nat.sqrt 4, Nat.sqrt 4) := by
      simp [smart_resize]
    rw [h1, h4]

/-! ## Claim C1 -/

/-- Claim C1 is wrong about the code (`code_bug`): when the page's `try`
block raises — e.g. the detection call fails — `main`'s `except` branch
executes `shutil.copy`, but `qwen_utils.py` never imports `shutil`
(`qwen_utils_imports`), so the handler itself raises `NameError`, which
propagates out of `main`: no output file is produced and the page is
dropped, contrary to the claim (and to the code's own comment and
fallback message). -/
theorem claim_C1_code_bug :
    main (.error (.other "detection API failure")) "imgs/doc/doc_page_1.png"
        none (some "doc") = .error (.nameError "name shutil is not defined") ∧
    (∀ (e : PyErr) (ip : String) (op : Option String) (pn : Option String),
      main (.error e) ip op pn = .error (.nameError "name shutil is not defined")) ∧
    "shutil" ∉ qwen_utils_imports := by
  refine ⟨rfl, fun e ip op pn => ?_, by decide⟩
  unfold main mainFallback
  rw [if_neg (by decide)]

/-! ## Claims C9 and C10 -/

/-- Claim C9, counterexample: the claim says no per-page detection or
translation call checks for or reacts to the missing credential
individually; in fact `translateWithAPI` checks it and returns its input
without calling the service (its result differs between absent and present
credential), and `inference_with_api` checks it and raises `ValueError`. -/
theorem claim_C9_counterexample :
    translateWithAPI none (fun _ => .ok "X") "你好" = .ok ("你好", false) ∧
    translateWithAPI (some "sk-1") (fun _ => .ok "X") "你好" = .ok ("X", true) ∧
    translateWithAPI none (fun _ => .ok "X") "你好" ≠
      translateWithAPI (some "sk-1") (fun _ => .ok "X") "你好" ∧
    inference_with_api none (fun _ => .ok "resp") "page.png" =
      .error (.valueError
        "MODELSCOPE_API_KEY environment variable not set. Cannot perform inference.") := by
  refine ⟨rfl, rfl, ?_, rfl⟩
  intro h
  have h2 := Except.ok.inj h
  have h3 := congrArg Prod.snd h2
  exact Bool.noConfusion h3

/-- Claim C9 as amended: with the credential absent (or empty), the CLI
run exits as a configuration error at startup, before any per-page work;
in addition — contrary to the claim's second half — each per-call layer
also guards individually: `translateWithAPI` returns its input unchanged
without invoking the service, and `inference_with_api` raises
`ValueError`. -/
theorem claim_C9_amended (key : Option String) (h : pyFalsy key = true)
    (numPages : Nat) (svc svcD : String → Except PyErr String)
    (raw image_path : String) :
    cli_main key numPages = .configExit ∧
    translateWithAPI key svc raw = .ok (raw, false) ∧
    inference_with_api key svcD image_path =
      .error (.valueError
        "MODELSCOPE_API_KEY environment variable not set. Cannot perform inference.") := by
  unfold cli_main check_environment translateWithAPI inference_with_api
  rw [h]
  exact ⟨rfl, rfl, rfl⟩

/-- Witness for the amended claim C9 with the credential unset. -/
theorem claim_C9_amended_witness :
    pyFalsy none = true ∧
    cli_main none 5 = .configExit ∧
    translateWithAPI none (fun s => .ok s) "hello" = .ok ("hello", false) ∧
    inference_with_api none (fun s => .ok s) "p.png" =
      .error (.valueError
        "MODELSCOPE_API_KEY environment variable not set. Cannot perform inference.") :=
  ⟨rfl, claim_C9_amended none rfl 5 (fun s => .ok s) (fun s => .ok s) "hello" "p.png"⟩

/-- Claim C10: with the credential unset, `translateWithAPI` returns its
input unchanged, raises nothing, and never invokes the remote service
(the `Bool` in the result records an invocation). -/
theorem claim_C10 (svc : String → Except PyErr String) (raw : String) :
    translateWithAPI none svc raw = .ok (raw, false) := rfl


/-! ## Claim C2 -/

theorem decorateKeys_some : ∀ (l : List String),
    (∀ s ∈ l, (natural_sort_key s).isSome = true) →
    ∃ ps, decorateKeys l = some ps ∧ ps.map Prod.fst = l ∧
      ∀ p ∈ ps, natural_sort_key p.1 = some p.2 := by
  intro l
  induction l with
  | nil =>
    intro _
    exact ⟨[], by rw [decorateKeys, List.mapM_nil]; rfl, rfl, by simp⟩
  | cons s l ih =>
    intro h
    obtain ⟨ps, hps, hmap, hkeys⟩ := ih fun u hu => h u (by simp [hu])
    have hs := h s (by simp)
    cases hk : natural_sort_key s with
    | none => rw [hk] at hs; cases hs
    | some k =>
      refine ⟨(s, k) :: ps, ?_, by simp [hmap], ?_⟩
      · unfold decorateKeys at hps ⊢
        rw [List.mapM_cons]
        show ((natural_sort_key s).map fun k => (s, k)) >>= (fun x =>
          (l.mapM fun u => (natural_sort_key u).map fun j => (u, j)) >>= fun xs =>
            pure (x :: xs)) = _
        rw [hk, hps]
        rfl
      · intro p hp
        rcases List.mem_cons.mp hp with hp | hp
        · rw [hp]; exact hk
        · exact hkeys p hp

/-- Claim C2: `batch_process_images` sorts the inputs by the natural key,
processes them in that order, sorts the collected outputs by the natural
key again, and returns them: the result is a permutation of the processed
inputs, of the same length, listed in non-descending natural-key order
(both the processing order and the returned order are sorted). -/
theorem claim_C2 (proc : String → String) (l : List String)
    (hin : ∀ s ∈ l, (natural_sort_key s).isSome = true)
    (hout : ∀ s ∈ l, (natural_sort_key (proc s)).isSome = true) :
    ∃ sortedIn out,
      pySortedByNatKey l = some sortedIn ∧
      batch_process_images proc l = some out ∧
      pySortedByNatKey (sortedIn.map proc) = some out ∧
      sortedIn.Perm l ∧
      out.Perm (l.map proc) ∧
      out.length = l.length ∧
      sortedIn.Pairwise (fun a b => ∀ ka kb, natural_sort_key a = some ka →
        natural_sort_key b = some kb → pyKeyCmp ka kb ≠ some .gt) ∧
      out.Pairwise (fun a b => ∀ ka kb, natural_sort_key a = some ka →
        natural_sort_key b = some kb → pyKeyCmp ka kb ≠ some .gt) := by
  obtain ⟨ps, hps, hmap, hkeys⟩ := decorateKeys_some l hin
  have sortPairwise : ∀ (qs : List (String × List NTok)),
      (∀ p ∈ qs, natural_sort_key p.1 = some p.2) →
      ((List.insertionSort keyPairLE qs).map Prod.fst).Pairwise
        (fun a b => ∀ ka kb, natural_sort_key a = some ka →
          natural_sort_key b = some kb → pyKeyCmp ka kb ≠ some .gt) := by
    intro qs hqs
    have hsorted : (List.insertionSort keyPairLE qs).Pairwise keyPairLE :=
      List.sorted_insertionSort keyPairLE qs
    have hmem : ∀ p ∈ List.insertionSort keyPairLE qs, natural_sort_key p.1 = some p.2 :=
      fun p hp => hqs p ((List.perm_insertionSort keyPairLE qs).mem_iff.mp hp)
    rw [List.pairwise_map]
    refine hsorted.imp_of_mem ?_
    intro p q hp hq hle
    intro ka kb hka hkb
    have hpk := hmem p hp
    have hqk := hmem q hq
    rw [hpk] at hka
    rw [hqk] at hkb
    cases hka
    cases hkb
    have halt1 := natKey_alt p.1 p.2 hpk
    have halt2 := natKey_alt q.1 q.2 hqk
    rw [alt_pyKeyCmp p.2 q.2 false halt1 halt2]
    intro heq
    exact (keyLE_iff p.2 q.2).mp hle (Option.some.inj heq)
  refine ⟨(List.insertionSort keyPairLE ps).map Prod.fst, ?_⟩
  have hsort1 : pySortedByNatKey l =
      some ((List.insertionSort keyPairLE ps).map Prod.fst) := by
    unfold pySortedByNatKey
    rw [hps]
    rfl
  have hperm1 : ((List.insertionSort keyPairLE ps).map Prod.fst).Perm l := by
    have := (List.perm_insertionSort keyPairLE ps).map Prod.fst
    rw [hmap] at this
    exact this
  have hout2 : ∀ s ∈ (List.insertionSort keyPairLE ps).map Prod.fst,
      (natural_sort_key (proc s)).isSome = true :=
    fun s hs => hout s (hperm1.mem_iff.mp hs)
  obtain ⟨qs, hqs, hmap2, hkeys2⟩ :=
    decorateKeys_some (((List.insertionSort keyPairLE ps).map Prod.fst).map proc)
      (by
        intro u hu
        rcases List.mem_map.mp hu with ⟨s, hs, rfl⟩
        exact hout2 s hs)
  refine ⟨(List.insertionSort keyPairLE qs).map Prod.fst, hsort1, ?_, ?_, hperm1, ?_, ?_, ?_, ?_⟩
  · unfold batch_process_images
    rw [hsort1]
    show pySortedByNatKey _ = _
    unfold pySortedByNatKey
    rw [hqs]
    rfl
  · unfold pySortedByNatKey
    rw [hqs]
    rfl
  · have h1 := (List.perm_insertionSort keyPairLE qs).map Prod.fst
    rw [hmap2] at h1
    exact h1.trans (hperm1.map proc)
  · have h1 := (List.perm_insertionSort keyPairLE qs).map Prod.fst
    rw [hmap2] at h1
    have h2 := h1.trans (hperm1.map proc)
    rw [h2.length_eq, List.length_map]
  · exact sortPairwise ps hkeys
  · exact sortPairwise qs hkeys2

/-- Claim C2, counterexample to the universal "for every input list": on a
path whose natural key raises (`"²"`, see claim C3), `sorted` raises
`ValueError` and `batch_process_images` produces no output list at all. -/
theorem claim_C2_counterexample :
    batch_process_images (fun s => s ++ "_t") ["²"] = none := by decide

/-- Witness for claim C2: three shuffled page files. -/
theorem claim_C2_witness :
    (∀ s ∈ ["b2.png", "b10.png", "b1.png"], (natural_sort_key s).isSome = true) ∧
    (∃ sortedIn out,
      pySortedByNatKey ["b2.png", "b10.png", "b1.png"] = some sortedIn ∧
      batch_process_images (fun s => s ++ "_t") ["b2.png", "b10.png", "b1.png"] = some out ∧
      pySortedByNatKey (sortedIn.map (fun s => s ++ "_t")) = some out ∧
      sortedIn.Perm ["b2.png", "b10.png", "b1.png"] ∧
      out.Perm (["b2.png", "b10.png", "b1.png"].map (fun s => s ++ "_t")) ∧
      out.length = ["b2.png", "b10.png", "b1.png"].length ∧
      sortedIn.Pairwise (fun a b => ∀ ka kb, natural_sort_key a = some ka →
        natural_sort_key b = some kb → pyKeyCmp ka kb ≠ some .gt) ∧
      out.Pairwise (fun a b => ∀ ka kb, natural_sort_key a = some ka →
        natural_sort_key b = some kb → pyKeyCmp ka kb ≠ some .gt)) ∧
    batch_process_images (fun s => s ++ "_t") ["b2.png", "b10.png", "b1.png"] =
      some ["b1.png_t", "b2.png_t", "b10.png_t"] :=
  ⟨by decide, claim_C2 (fun s => s ++ "_t") ["b2.png", "b10.png", "b1.png"]
      (by decide) (by decide), by decide⟩


/-! ## Claim C7 -/

/-- Claim C7: the fallback chain runs in the specified order — strict JSON
parse; on its failure the regex extraction; when the regex step fails by
raising (`int` on a malformed coordinate), the permissive literal
evaluation; and when every strategy fails the page gets an empty record
list and the unannotated image, never an exception. -/
theorem claim_C7 (response : String) :
    (∀ v, jsonLoads (cleanedOf response) = some v →
      parsedBoxesOf response = (some v, .viaJson)) ∧
    (∀ recs, jsonLoads (cleanedOf response) = none →
      regexRecords (cleanedOf response).data = .ok recs →
      parsedBoxesOf response = (some (.arr recs), .viaRegex)) ∧
    (∀ e v, jsonLoads (cleanedOf response) = none →
      regexRecords (cleanedOf response).data = .error e →
      pyLiteralEval (cleanedOf response) = some v →
      parsedBoxesOf response = (some v, .viaLiteral)) ∧
    (∀ e, jsonLoads (cleanedOf response) = none →
      regexRecords (cleanedOf response).data = .error e →
      pyLiteralEval (cleanedOf response) = none →
      parsedBoxesOf response = (none, .failed) ∧
      ∀ key svc cfg, plot_text_bounding_boxes key svc cfg response = ([], false)) := by
  refine ⟨?_, ?_, ?_, ?_⟩
  · intro v hj
    unfold parsedBoxesOf chainParse
    rw [hj]
  · intro recs hj hr
    unfold parsedBoxesOf chainParse
    rw [hj, hr]
  · intro e v hj hr hl
    unfold parsedBoxesOf chainParse
    rw [hj, hr, hl]
  · intro e hj hr hl
    have hp : parsedBoxesOf response = (none, .failed) := by
      unfold parsedBoxesOf chainParse
      rw [hj, hr, hl]
    refine ⟨hp, ?_⟩
    intro key svc cfg
    unfold plot_text_bounding_boxes
    rw [hp]

/-- Witness for claim C7 at a concrete response where JSON, regex and
literal evaluation all fail: the page ends with no records and the
unannotated image. -/
theorem claim_C7_witness :
    jsonLoads (cleanedOf respAllFail) = none ∧
    regexRecords (cleanedOf respAllFail).data =
      .error (.valueError "invalid literal for int() with base 10") ∧
    pyLiteralEval (cleanedOf respAllFail) = none ∧
    parsedBoxesOf respAllFail = (none, .failed) ∧
    plot_text_bounding_boxes (some "sk-1") svcEcho cfgDemo respAllFail = ([], false) := by
  have h := (claim_C7 respAllFail).2.2.2
    (.valueError "invalid literal for int() with base 10") rfl rfl rfl
  exact ⟨rfl, rfl, rfl, h.1, h.2 (some "sk-1") svcEcho cfgDemo⟩


/-! ## Claim C6 -/

theorem find_any_true {kvs : List (String × PyVal)} {k : String}
    {kv : String × PyVal} (h : kvs.find? (fun kv => kv.1 = k) = some kv) :
    (kvs.any fun kv => kv.1 = k) = true := by
  rw [List.any_eq_true]
  refine ⟨kv, List.mem_of_find?_eq_some h, ?_⟩
  have h2 := List.find?_some h
  simpa using h2

theorem find_any_false {kvs : List (String × PyVal)} {k : String}
    (h : kvs.find? (fun kv => kv.1 = k) = none) :
    (kvs.any fun kv => kv.1 = k) = false := by
  rw [List.any_eq_false]
  intro kv hkv
  have := List.find?_eq_none.mp h kv hkv
  simpa using this

theorem processRecord_skip (key : Option String) (svc : String → Except PyErr String)
    (cfg : PlotCfg) (b : PyVal) (h : skipShape b = true) :
    processRecord key svc cfg b = .ok none := by
  cases b with
  | obj kvs =>
    simp only [skipShape] at h
    split at h
    case h_1 hfind =>
      simp [processRecord, pyContains, find_any_false hfind,
        Bind.bind, Except.bind, Pure.pure, Except.pure]
    case h_2 kv hfind =>
      split at h
      case h_1 comps hcomps =>
        have hlen : comps.length < 4 := by simpa using h
        have hany := find_any_true hfind
        match comps, hlen with
        | [], _ =>
          simp [processRecord, pyContains, pyGetItem, hfind, hany, hcomps,
            Bind.bind, Except.bind, Pure.pure, Except.pure]
        | [c0], _ =>
          simp [processRecord, pyContains, pyGetItem, hfind, hany, hcomps,
            Bind.bind, Except.bind, Pure.pure, Except.pure]
        | [c0, c1], _ =>
          simp [processRecord, pyContains, pyGetItem, hfind, hany, hcomps,
            Bind.bind, Except.bind, Pure.pure, Except.pure]
        | [c0, c1, c2], _ =>
          simp [processRecord, pyContains, pyGetItem, hfind, hany, hcomps,
            Bind.bind, Except.bind, Pure.pure, Except.pure]
        | c0 :: c1 :: c2 :: c3 :: rest, hlen =>
          simp only [List.length_cons] at hlen
          omega
      case h_2 hnotarr =>
        have hany := find_any_true hfind
        cases hkv : kv.2 with
        | arr comps => exact absurd hkv (hnotarr comps)
        | null =>
          simp [processRecord, pyContains, pyGetItem, hfind, hany, hkv,
            Bind.bind, Except.bind, Pure.pure, Except.pure]
        | bool v =>
          simp [processRecord, pyContains, pyGetItem, hfind, hany, hkv,
            Bind.bind, Except.bind, Pure.pure, Except.pure]
        | num q =>
          simp [processRecord, pyContains, pyGetItem, hfind, hany, hkv,
            Bind.bind, Except.bind, Pure.pure, Except.pure]
        | str s =>
          simp [processRecord, pyContains, pyGetItem, hfind, hany, hkv,
            Bind.bind, Except.bind, Pure.pure, Except.pure]
        | obj kvs2 =>
          simp [processRecord, pyContains, pyGetItem, hfind, hany, hkv,
            Bind.bind, Except.bind, Pure.pure, Except.pure]
  | null => exact Bool.noConfusion h
  | bool v => exact Bool.noConfusion h
  | num q => exact Bool.noConfusion h
  | str s => exact Bool.noConfusion h
  | arr xs => exact Bool.noConfusion h

theorem processRecord_good (key : Option String) (svc : String → Except PyErr String)
    (cfg : PlotCfg) (b : PyVal)
    (h1 : cfg.input_height ≠ 0) (h2 : cfg.input_width ≠ 0)
    (h : goodShape b = true) :
    ∃ r, processRecord key svc cfg b = .ok (some r) := by
  cases b with
  | obj kvs =>
    simp only [goodShape, Bool.and_eq_true] at h
    obtain ⟨hbb, htx⟩ := h
    split at hbb
    case h_2 hfind => exact absurd hbb (by simp)
    case h_1 kv hfind =>
      split at hbb
      case h_2 hnotarr => exact absurd hbb (by simp)
      case h_1 comps hcomps =>
        rw [Bool.and_eq_true] at hbb
        obtain ⟨hlen, hnum⟩ := hbb
        have hany := find_any_true hfind
        have hlen2 : 4 ≤ comps.length := by simpa using hlen
        match comps, hlen2, hnum with
        | c0 :: c1 :: c2 :: c3 :: rest, _, hnum =>
          simp only [List.all_cons, Bool.and_eq_true] at hnum
          obtain ⟨hn0, hn1, hn2, hn3, -⟩ := hnum
          cases ha0 : asNum c0 with
          | none => rw [ha0] at hn0; cases hn0
          | some q0 =>
          cases ha1 : asNum c1 with
          | none => rw [ha1] at hn1; cases hn1
          | some q1 =>
          cases ha2 : asNum c2 with
          | none => rw [ha2] at hn2; cases hn2
          | some q2 =>
          cases ha3 : asNum c3 with
          | none => rw [ha3] at hn3; cases hn3
          | some q3 =>
          simp only [textOK] at htx
          split at htx
          case h_1 hft =>
            simp [processRecord, pyContains, pyGetItem, hfind, hany, hcomps,
              ha0, ha1, ha2, ha3, h1, h2, find_any_false hft, hft,
              Bind.bind, Except.bind, Pure.pure, Except.pure]
          case h_2 kvt hft =>
            have hanyt := find_any_true hft
            cases htr : pyTruthy kvt.2 with
            | false =>
              simp [processRecord, pyContains, pyGetItem, hfind, hany, hcomps,
                ha0, ha1, ha2, ha3, h1, h2, hanyt, hft, htr,
                Bind.bind, Except.bind, Pure.pure, Except.pure]
            | true =>
              rw [htr] at htx
              simp only [Bool.not_true, Bool.false_or] at htx
              cases hstr : kvt.2 with
              | str t =>
                have htr2 : pyTruthy (PyVal.str t) = true := hstr ▸ htr
                cases htrans : translateWithAPI key svc t with
                | ok p =>
                  obtain ⟨tr, fl⟩ := p
                  simp [processRecord, pyContains, pyGetItem, hfind, hany, hcomps,
                    ha0, ha1, ha2, ha3, h1, h2, hanyt, hft, htr, htr2, hstr, htrans,
                    Bind.bind, Except.bind, Pure.pure, Except.pure]
                | error e =>
                  simp [processRecord, pyContains, pyGetItem, hfind, hany, hcomps,
                    ha0, ha1, ha2, ha3, h1, h2, hanyt, hft, htr, htr2, hstr, htrans,
                    Bind.bind, Except.bind, Pure.pure, Except.pure]
              | null => rw [hstr] at htx; exact absurd htx (by simp)
              | bool v => rw [hstr] at htx; exact absurd htx (by simp)
              | num q => rw [hstr] at htx; exact absurd htx (by simp)
              | arr xs => rw [hstr] at htx; exact absurd htx (by simp)
              | obj k2 => rw [hstr] at htx; exact absurd htx (by simp)
  | null => exact Bool.noConfusion h
  | bool v => exact Bool.noConfusion h
  | num q => exact Bool.noConfusion h
  | str s => exact Bool.noConfusion h
  | arr xs => exact Bool.noConfusion h

theorem shapes_exclusive (b : PyVal) (h : skipShape b = true) :
    goodShape b = false := by
  cases b with
  | obj kvs =>
    simp only [skipShape] at h
    split at h
    case h_1 hfind => simp [goodShape, hfind]
    case h_2 kv hfind =>
      split at h
      case h_1 comps hcomps =>
        have hlen : ¬(4 ≤ comps.length) := by
          simp at h
          omega
        simp [goodShape, hfind, hcomps, hlen]
      case h_2 hnotarr =>
        cases hkv : kv.2 with
        | arr comps => exact absurd hkv (hnotarr comps)
        | null => simp [goodShape, hfind, hkv]
        | bool v => simp [goodShape, hfind, hkv]
        | num q => simp [goodShape, hfind, hkv]
        | str s => simp [goodShape, hfind, hkv]
        | obj kvs2 => simp [goodShape, hfind, hkv]
  | null => exact Bool.noConfusion h
  | bool v => exact Bool.noConfusion h
  | num q => exact Bool.noConfusion h
  | str s => exact Bool.noConfusion h
  | arr xs => exact Bool.noConfusion h

/-- Claim C6, counterexample: the source validates `len(bbox) < 4`, not
"exactly 4": a record whose bbox has five components is not skipped — it
is drawn using the first four — contradicting "does not have exactly 4
numeric components is skipped". -/
theorem claim_C6_counterexample :
    (∃ kvs comps, rec5Demo = PyVal.obj kvs ∧
      (kvs.find? fun kv => kv.1 = "bbox_2d") = some ("bbox_2d", PyVal.arr comps) ∧
      comps.length = 5) ∧
    processRecord (some "sk-1") svcEcho cfgDemo rec5Demo =
      .ok (some ⟨(50, 160, 150, 320), some (50, 320, "x")⟩) ∧
    processRecord (some "sk-1") svcEcho cfgDemo rec5Demo ≠ .ok none := by
  refine ⟨⟨_, _, rfl, rfl, rfl⟩, rfl, ?_⟩
  intro h
  have h2 := Except.ok.inj h
  cases h2

/-- Claim C6 as amended: each record is validated independently on the
check the source actually performs (`bbox_2d` present, a list, length at
least 4); records failing it are skipped while the rest are still
processed; a list whose records are all either valid (4 or more numeric
components, string text) or invalid in that sense is processed without
any exception, every record yields an entry, and the number of drawn
records equals the number of valid ones. -/
theorem claim_C6_amended (key : Option String) (svc : String → Except PyErr String)
    (cfg : PlotCfg) (h1 : cfg.input_height ≠ 0) (h2 : cfg.input_width ≠ 0)
    (records : List PyVal)
    (h : ∀ b ∈ records, goodShape b = true ∨ skipShape b = true) :
    (processLoop key svc cfg records).2 = none ∧
    (processLoop key svc cfg records).1.length = records.length ∧
    ((processLoop key svc cfg records).1.filterMap id).length =
      (records.filter goodShape).length := by
  induction records with
  | nil => exact ⟨rfl, rfl, rfl⟩
  | cons b rest ih =>
    obtain ⟨he, hl, hc⟩ := ih fun u hu => h u (by simp [hu])
    rcases h b (by simp) with hg | hs
    · obtain ⟨r, hr⟩ := processRecord_good key svc cfg b h1 h2 hg
      unfold processLoop
      rw [hr]
      refine ⟨by simpa using he, by simpa using hl, ?_⟩
      simp only [List.filter_cons, hg, if_true]
      simpa using hc
    · have hr := processRecord_skip key svc cfg b hs
      unfold processLoop
      rw [hr]
      refine ⟨by simpa using he, by simpa using hl, ?_⟩
      simp only [List.filter_cons, shapes_exclusive b hs, Bool.false_eq_true, if_false]
      simpa using hc

/-- Witness for the amended claim C6: a response with 2 of 3 records
well-formed yields exactly 2 drawn records, an entry per record, and no
exception. -/
theorem claim_C6_witness :
    (∀ b ∈ [mkRec (.ofInt 100) (.ofInt 200) (.ofInt 300) (.ofInt 400) "你好",
            recNoBox,
            mkRec (.ofInt 10) (.ofInt 20) (.ofInt 30) (.ofInt 40) "hi"],
      goodShape b = true ∨ skipShape b = true) ∧
    (processLoop (some "sk-1") svcEcho cfgDemo
        [mkRec (.ofInt 100) (.ofInt 200) (.ofInt 300) (.ofInt 400) "你好",
         recNoBox,
         mkRec (.ofInt 10) (.ofInt 20) (.ofInt 30) (.ofInt 40) "hi"]).2 = none ∧
    (processLoop (some "sk-1") svcEcho cfgDemo
        [mkRec (.ofInt 100) (.ofInt 200) (.ofInt 300) (.ofInt 400) "你好",
         recNoBox,
         mkRec (.ofInt 10) (.ofInt 20) (.ofInt 30) (.ofInt 40) "hi"]).1.length = 3 ∧
    ((processLoop (some "sk-1") svcEcho cfgDemo
        [mkRec (.ofInt 100) (.ofInt 200) (.ofInt 300) (.ofInt 400) "你好",
         recNoBox,
         mkRec (.ofInt 10) (.ofInt 20) (.ofInt 30) (.ofInt 40) "hi"]).1.filterMap id).length = 2 := by
  have h := claim_C6_amended (some "sk-1") svcEcho cfgDemo (by decide) (by decide)
    [mkRec (.ofInt 100) (.ofInt 200) (.ofInt 300) (.ofInt 400) "你好",
     recNoBox,
     mkRec (.ofInt 10) (.ofInt 20) (.ofInt 30) (.ofInt 40) "hi"] (by decide)
  exact ⟨by decide, h.1, by simpa using h.2.1, by
    have := h.2.2
    rw [this]
    decide⟩


/-! ## Claim C8 -/

/-- Claim C8: for a valid record, when the translation call raises, the
original untranslated `text_content` is drawn at the record's box anchor
(the same `(abs_x1, abs_y2)` position the translation would have used),
and the loop continues with the remaining records instead of aborting. -/
theorem claim_C8 (key : Option String) (svc : String → Except PyErr String)
    (cfg : PlotCfg) (q0 q1 q2 q3 : PyQ) (t : String) (e : PyErr)
    (rest : List PyVal)
    (hkey : pyFalsy key = false) (hsvc : svc t = .error e)
    (ht : pyTruthy (.str t) = true)
    (h1 : cfg.input_height ≠ 0) (h2 : cfg.input_width ≠ 0) :
    ∃ x1 y1 x2 y2,
      processRecord key svc cfg (mkRec q0 q1 q2 q3 t) =
        .ok (some ⟨(x1, y1, x2, y2), some (x1, y2, t)⟩) ∧
      processLoop key svc cfg (mkRec q0 q1 q2 q3 t :: rest) =
        ((some (⟨(x1, y1, x2, y2), some (x1, y2, t)⟩ : RecDraw)) ::
            (processLoop key svc cfg rest).1,
         (processLoop key svc cfg rest).2) := by
  have htrans : translateWithAPI key svc t = .error e := by
    simp [translateWithAPI, hkey, hsvc, Except.map]
  cases hL : processLoop key svc cfg rest with
  | mk rs er =>
    simp [mkRec, processRecord, processLoop, pyContains, pyGetItem, asNum,
      ht, h1, h2, htrans, hL, Bind.bind, Except.bind, Pure.pure, Except.pure]

/-- Witness for claim C8: a concrete record whose translation service
raises; the original text is drawn and the following record is still
processed. -/
theorem claim_C8_witness :
    pyFalsy (some "sk-1") = false ∧
    svcDown "你好" = .error (.other "api down") ∧
    (∃ x1 y1 x2 y2,
      processRecord (some "sk-1") svcDown cfgDemo
          (mkRec (.ofInt 100) (.ofInt 200) (.ofInt 300) (.ofInt 400) "你好") =
        .ok (some ⟨(x1, y1, x2, y2), some (x1, y2, "你好")⟩) ∧
      processLoop (some "sk-1") svcDown cfgDemo
          (mkRec (.ofInt 100) (.ofInt 200) (.ofInt 300) (.ofInt 400) "你好" ::
            [mkRec (.ofInt 10) (.ofInt 20) (.ofInt 30) (.ofInt 40) "hi"]) =
        ((some (⟨(x1, y1, x2, y2), some (x1, y2, "你好")⟩ : RecDraw)) ::
            (processLoop (some "sk-1") svcDown cfgDemo
              [mkRec (.ofInt 10) (.ofInt 20) (.ofInt 30) (.ofInt 40) "hi"]).1,
         (processLoop (some "sk-1") svcDown cfgDemo
              [mkRec (.ofInt 10) (.ofInt 20) (.ofInt 30) (.ofInt 40) "hi"]).2)) :=
  ⟨rfl, rfl,
    claim_C8 (some "sk-1") svcDown cfgDemo (.ofInt 100) (.ofInt 200) (.ofInt 300)
      (.ofInt 400) "你好" (.other "api down")
      [mkRec (.ofInt 10) (.ofInt 20) (.ofInt 30) (.ofInt 40) "hi"]
      rfl rfl (by decide) (by decide) (by decide)⟩

/-! ### Claim C5: a trailing newline is invisible to every parsing stage -/

theorem tkFinish_step_nl (st : TkSt) :
    tkFinish (tkStep st '\n') = tkFinish st := by
  cases st with
  | top acc => rfl
  | instr acc cur => rfl
  | esc acc cur => rfl
  | uni acc cur hex => rfl
  | innum acc cur =>
    have e : tkStep (TkSt.innum acc cur) '\n' =
        (match numFromRun cur.reverse with
         | some q => topStep (JTok.lit (.num q) :: acc) '\n'
         | none => TkSt.sfail) := rfl
    rw [e]
    cases h : numFromRun cur.reverse with
    | none => simp [tkFinish, h]
    | some q =>
      have e2 : topStep (JTok.lit (PyVal.num q) :: acc) '\n' =
          TkSt.top (JTok.lit (PyVal.num q) :: acc) := rfl
      show tkFinish (topStep (JTok.lit (PyVal.num q) :: acc) '\n') =
        tkFinish (TkSt.innum acc cur)
      rw [e2]
      simp [tkFinish, h]
  | inword acc cur =>
    have e : tkStep (TkSt.inword acc cur) '\n' =
        (match wordVal (String.mk cur.reverse) with
         | some v => topStep (JTok.lit v :: acc) '\n'
         | none => TkSt.sfail) := rfl
    rw [e]
    cases h : wordVal (String.mk cur.reverse) with
    | none => simp [tkFinish, h]
    | some v =>
      have e2 : topStep (JTok.lit v :: acc) '\n' =
          TkSt.top (JTok.lit v :: acc) := rfl
      show tkFinish (topStep (JTok.lit v :: acc) '\n') =
        tkFinish (TkSt.inword acc cur)
      rw [e2]
      simp [tkFinish, h]
  | sfail => rfl

theorem jsonLoads_append_nl (cs : List Char) :
    jsonLoads (String.mk (cs ++ ['\n'])) = jsonLoads (String.mk cs) := by
  unfold jsonLoads jsonTokenize
  rw [mk_data, mk_data,
    show (cs ++ ['\n']).foldl tkStep (TkSt.top []) =
        tkStep (cs.foldl tkStep (TkSt.top [])) '\n' from by
      rw [List.foldl_append]
      rfl,
    tkFinish_step_nl]

theorem lStOK_lTopStep (acc : List JTok) (c : Char) :
    lStOK (lTopStep acc c) = true := by
  unfold lTopStep
  repeat' split
  all_goals first
    | rfl
    | (rename_i hq
       rcases hq with rfl | rfl <;> rfl)

theorem lStOK_step (st : LSt) (c : Char) (h : lStOK st = true) :
    lStOK (lStep st c) = true := by
  cases st with
  | ltop acc => exact lStOK_lTopStep acc c
  | linstr acc q cur =>
    simp only [lStep]
    repeat' split
    all_goals simp_all [lStOK]
  | lesc acc q cur =>
    simp only [lStep]
    repeat' split
    all_goals simp_all [lStOK]
  | linnum acc cur =>
    simp only [lStep]
    split
    · rfl
    split
    · exact lStOK_lTopStep _ c
    · rfl
  | linword acc cur =>
    simp only [lStep]
    split
    · rfl
    split
    · exact lStOK_lTopStep _ c
    · rfl
  | lfail => rfl

theorem lStOK_foldl (cs : List Char) :
    ∀ st, lStOK st = true → lStOK (cs.foldl lStep st) = true := by
  induction cs with
  | nil => intro st h; exact h
  | cons c rest ih =>
    intro st h
    exact ih (lStep st c) (lStOK_step st c h)

theorem lFinish_step_nl (st : LSt) (h : lStOK st = true) :
    lFinish (lStep st '\n') = lFinish st := by
  cases st with
  | ltop acc => rfl
  | linstr acc q cur =>
    have hq : ¬ ('\n' = q) := by
      intro e
      rw [← e] at h
      simp [lStOK] at h
    have e : lStep (LSt.linstr acc q cur) '\n' = LSt.lfail := by
      simp only [lStep, if_neg hq]
      rfl
    rw [e]
    rfl
  | lesc acc q cur => rfl
  | linnum acc cur =>
    have e : lStep (LSt.linnum acc cur) '\n' =
        (match pyNumFromRun cur.reverse with
         | some q => lTopStep (JTok.lit (.num q) :: acc) '\n'
         | none => LSt.lfail) := rfl
    rw [e]
    cases hn : pyNumFromRun cur.reverse with
    | none => simp [lFinish, hn]
    | some q =>
      have e2 : lTopStep (JTok.lit (PyVal.num q) :: acc) '\n' =
          LSt.ltop (JTok.lit (PyVal.num q) :: acc) := rfl
      show lFinish (lTopStep (JTok.lit (PyVal.num q) :: acc) '\n') =
        lFinish (LSt.linnum acc cur)
      rw [e2]
      simp [lFinish, hn]
  | linword acc cur =>
    have e : lStep (LSt.linword acc cur) '\n' =
        (match pyWordVal (String.mk cur.reverse) with
         | some v => lTopStep (JTok.lit v :: acc) '\n'
         | none => LSt.lfail) := rfl
    rw [e]
    cases hn : pyWordVal (String.mk cur.reverse) with
    | none => simp [lFinish, hn]
    | some v =>
      have e2 : lTopStep (JTok.lit v :: acc) '\n' =
          LSt.ltop (JTok.lit v :: acc) := rfl
      show lFinish (lTopStep (JTok.lit v :: acc) '\n') =
        lFinish (LSt.linword acc cur)
      rw [e2]
      simp [lFinish, hn]
  | lfail => rfl

theorem pyLiteralEval_append_nl (cs : List Char) :
    pyLiteralEval (String.mk (cs ++ ['\n'])) = pyLiteralEval (String.mk cs) := by
  unfold pyLiteralEval litTokenize
  rw [mk_data, mk_data,
    show (cs ++ ['\n']).foldl lStep (LSt.ltop []) =
        lStep (cs.foldl lStep (LSt.ltop [])) '\n' from by
      rw [List.foldl_append]
      rfl,
    lFinish_step_nl _ (lStOK_foldl cs (LSt.ltop []) rfl)]

theorem dropExpect_append_nl :
    ∀ (pat : List Char), '\n' ∉ pat → ∀ cs,
      dropExpect pat (cs ++ ['\n']) = (dropExpect pat cs).map (· ++ ['\n']) := by
  intro pat
  induction pat with
  | nil => intro _ cs; rfl
  | cons l ls ih =>
    intro hp cs
    have hl : ¬ ('\n' = l) := by
      intro e
      exact hp (by rw [e]; exact List.mem_cons_self l ls)
    have hls : '\n' ∉ ls := fun m => hp (List.mem_cons_of_mem _ m)
    cases cs with
    | nil =>
      simp only [List.nil_append, dropExpect, if_neg hl]
      rfl
    | cons c cs =>
      simp only [List.cons_append, dropExpect, List.append_eq]
      by_cases hc : c = l
      · rw [if_pos hc, if_pos hc, ih hls cs]
      · rw [if_neg hc, if_neg hc]
        rfl

theorem skipWsRe_append_nl (cs : List Char) :
    skipWsRe (cs ++ ['\n']) =
      if skipWsRe cs = [] then [] else skipWsRe cs ++ ['\n'] := by
  induction cs with
  | nil => rfl
  | cons c rest ih =>
    simp only [List.cons_append, skipWsRe, List.dropWhile_cons] at *
    by_cases hw : pyWsRe c = true
    · rw [if_pos hw, if_pos hw]
      exact ih
    · rw [if_neg hw, if_neg hw, if_neg (by simp)]
      rfl

theorem dropSkip_append_nl (lit : List Char) (h0 : lit ≠ []) (hn : '\n' ∉ lit)
    (cs : List Char) :
    dropExpect lit (skipWsRe (cs ++ ['\n'])) =
      (dropExpect lit (skipWsRe cs)).map (· ++ ['\n']) := by
  rw [skipWsRe_append_nl]
  by_cases hw : skipWsRe cs = []
  · rw [if_pos hw, hw]
    cases lit with
    | nil => exact absurd rfl h0
    | cons l ls => rfl
  · rw [if_neg hw]
    exact dropExpect_append_nl lit hn (skipWsRe cs)

theorem findG2_append_nl : ∀ cs, findG2 (cs ++ ['\n']) =
    (findG2 cs).map fun p => (p.1, p.2 ++ ['\n']) := by
  intro cs
  induction cs with
  | nil => rfl
  | cons c rest ih =>
    simp only [List.cons_append, findG2, List.append_eq]
    by_cases h1 : c = '"'
    · rw [if_pos h1, if_pos h1]
      rfl
    · rw [if_neg h1, if_neg h1]
      by_cases h2 : c = '\n'
      · rw [if_pos h2, if_pos h2]
        rfl
      · rw [if_neg h2, if_neg h2, ih]
        cases findG2 rest <;> rfl

theorem tryCont_append_nl (cs : List Char) :
    tryCont (cs ++ ['\n']) = (tryCont cs).map fun p => (p.1, p.2 ++ ['\n']) := by
  have e : ∀ ds, tryCont ds =
      (dropExpect "],".data ds).bind fun r1 =>
        (dropExpect "\"text_content\":".data (skipWsRe r1)).bind fun r3 =>
          (dropExpect "\"".data (skipWsRe r3)).bind findG2 := by
    intro ds
    unfold tryCont
    cases dropExpect "],".data ds with
    | none => rfl
    | some r1 =>
      simp only [Option.some_bind]
      cases dropExpect "\"text_content\":".data (skipWsRe r1) with
      | none => rfl
      | some r3 =>
        simp only [Option.some_bind]
        cases dropExpect "\"".data (skipWsRe r3) <;> rfl
  rw [e, e, dropExpect_append_nl "],".data (by decide) cs]
  cases dropExpect "],".data cs with
  | none => rfl
  | some r1 =>
    simp only [Option.map_some', Option.some_bind]
    rw [dropSkip_append_nl "\"text_content\":".data (by decide) (by decide) r1]
    cases dropExpect "\"text_content\":".data (skipWsRe r1) with
    | none => rfl
    | some r3 =>
      simp only [Option.map_some', Option.some_bind]
      rw [dropSkip_append_nl "\"".data (by decide) (by decide) r3]
      cases dropExpect "\"".data (skipWsRe r3) with
      | none => rfl
      | some r5 =>
        simp only [Option.map_some', Option.some_bind]
        exact findG2_append_nl r5

theorem findG1_append_nl : ∀ cs, findG1 (cs ++ ['\n']) =
    (findG1 cs).map fun p => (p.1, p.2.1, p.2.2 ++ ['\n']) := by
  intro cs
  induction cs with
  | nil => rfl
  | cons c rest ih =>
    have ht := tryCont_append_nl (c :: rest)
    simp only [List.cons_append, List.append_eq] at ht
    simp only [List.cons_append, findG1, List.append_eq]
    rw [ht]
    cases tryCont (c :: rest) with
    | some p => rfl
    | none =>
      show (if c = '\n' then none
            else (findG1 (rest ++ ['\n'])).map fun p => (c :: p.1, p.2.1, p.2.2)) =
        Option.map (fun p => (p.1, p.2.1, p.2.2 ++ ['\n']))
          (if c = '\n' then none
           else (findG1 rest).map fun p => (c :: p.1, p.2.1, p.2.2))
      by_cases h2 : c = '\n'
      · rw [if_pos h2, if_pos h2]
        rfl
      · rw [if_neg h2, if_neg h2, ih]
        cases findG1 rest <;> rfl

theorem matchBBoxAt_append_nl (cs : List Char) :
    matchBBoxAt (cs ++ ['\n']) =
      (matchBBoxAt cs).map fun p => (p.1, p.2.1, p.2.2 ++ ['\n']) := by
  have e : ∀ ds, matchBBoxAt ds =
      (dropExpect "\"bbox_2d\":".data ds).bind fun r1 =>
        (dropExpect "[".data (skipWsRe r1)).bind findG1 := by
    intro ds
    unfold matchBBoxAt
    cases dropExpect "\"bbox_2d\":".data ds with
    | none => rfl
    | some r1 =>
      simp only [Option.some_bind]
      cases dropExpect "[".data (skipWsRe r1) <;> rfl
  rw [e, e, dropExpect_append_nl "\"bbox_2d\":".data (by decide) cs]
  cases dropExpect "\"bbox_2d\":".data cs with
  | none => rfl
  | some r1 =>
    simp only [Option.map_some', Option.some_bind]
    rw [dropSkip_append_nl "[".data (by decide) (by decide) r1]
    cases dropExpect "[".data (skipWsRe r1) with
    | none => rfl
    | some r2 =>
      simp only [Option.map_some', Option.some_bind]
      exact findG1_append_nl r2

theorem findAllGo_nil : ∀ f, findAllGo f [] = [] := by
  intro f
  cases f with
  | zero => rfl
  | succ fa => rfl

theorem findAllGo_fuel : ∀ (n f1 f2 : Nat) (cs : List Char), cs.length = n →
    n < f1 → n < f2 → findAllGo f1 cs = findAllGo f2 cs := by
  intro n
  induction n using Nat.strong_induction_on with
  | _ n ih =>
    intro f1 f2 cs hlen h1 h2
    cases f1 with
    | zero => omega
    | succ fa =>
      cases f2 with
      | zero => omega
      | succ fb =>
        simp only [findAllGo]
        cases hm : matchBBoxAt cs with
        | some t =>
          obtain ⟨g1, g2, rest⟩ := t
          have hr : rest.length < n := hlen ▸ matchBBoxAt_length cs g1 g2 rest hm
          show (g1, g2) :: findAllGo fa rest = (g1, g2) :: findAllGo fb rest
          rw [ih rest.length hr fa fb rest rfl (by omega) (by omega)]
        | none =>
          cases cs with
          | nil => rfl
          | cons c rest =>
            simp only [List.length_cons] at hlen
            show findAllGo fa rest = findAllGo fb rest
            exact ih rest.length (by omega) fa fb rest rfl (by omega) (by omega)

theorem findAllBBox_append_nl : ∀ (n : Nat) (cs : List Char), cs.length = n →
    findAllBBox (cs ++ ['\n']) = findAllBBox cs := by
  intro n
  induction n using Nat.strong_induction_on with
  | _ n ih =>
    intro cs hlen
    unfold findAllBBox
    have hl2 : (cs ++ ['\n']).length = n + 1 := by simp [hlen]
    rw [hl2, hlen]
    simp only [findAllGo]
    rw [matchBBoxAt_append_nl cs]
    cases hm : matchBBoxAt cs with
    | some t =>
      obtain ⟨g1, g2, rest⟩ := t
      have hr : rest.length < n := hlen ▸ matchBBoxAt_length cs g1 g2 rest hm
      show (g1, g2) :: findAllGo (n + 1) (rest ++ ['\n']) =
        (g1, g2) :: findAllGo n rest
      congr 1
      calc findAllGo (n + 1) (rest ++ ['\n'])
          = findAllGo ((rest ++ ['\n']).length + 1) (rest ++ ['\n']) :=
            findAllGo_fuel (rest ++ ['\n']).length (n + 1)
              ((rest ++ ['\n']).length + 1) (rest ++ ['\n']) rfl
              (by simp only [List.length_append, List.length_cons,
                List.length_nil]; omega) (Nat.lt_succ_self _)
        _ = findAllBBox (rest ++ ['\n']) := rfl
        _ = findAllBBox rest := ih rest.length hr rest rfl
        _ = findAllGo (rest.length + 1) rest := rfl
        _ = findAllGo n rest :=
            findAllGo_fuel rest.length (rest.length + 1) n rest rfl
              (Nat.lt_succ_self _) hr
    | none =>
      simp only [Option.map_none']
      cases cs with
      | nil => rfl
      | cons c rest =>
        simp only [List.length_cons] at hlen
        show findAllGo (n + 1) (rest ++ ['\n']) = findAllGo n rest
        calc findAllGo (n + 1) (rest ++ ['\n'])
            = findAllGo ((rest ++ ['\n']).length + 1) (rest ++ ['\n']) :=
              findAllGo_fuel (rest ++ ['\n']).length (n + 1)
                ((rest ++ ['\n']).length + 1) (rest ++ ['\n']) rfl
                (by simp only [List.length_append, List.length_cons,
                  List.length_nil]; omega) (Nat.lt_succ_self _)
          _ = findAllBBox (rest ++ ['\n']) := rfl
          _ = findAllBBox rest := ih rest.length (by omega) rest rfl
          _ = findAllGo (rest.length + 1) rest := rfl
          _ = findAllGo n rest :=
              findAllGo_fuel rest.length (rest.length + 1) n rest rfl
                (Nat.lt_succ_self _) (by omega)

theorem regexRecords_append_nl (cs : List Char) :
    regexRecords (cs ++ ['\n']) = regexRecords cs := by
  unfold regexRecords
  rw [findAllBBox_append_nl cs.length cs rfl]

theorem replaceColonEq_append_nl : ∀ (n : Nat) (cs : List Char), cs.length = n →
    replaceColonEq (cs ++ ['\n']) = replaceColonEq cs ++ ['\n'] := by
  intro n
  induction n using Nat.strong_induction_on with
  | _ n ih =>
    intro cs hlen
    match cs with
    | [] => rfl
    | c1 :: rest =>
      simp only [List.length_cons] at hlen
      by_cases h1 : c1 = ':'
      · subst h1
        match rest with
        | [] => rfl
        | c2 :: rest2 =>
          simp only [List.length_cons] at hlen
          by_cases h2 : c2 = '='
          · subst h2
            show ':' :: replaceColonEq (rest2 ++ ['\n']) =
              (':' :: replaceColonEq rest2) ++ ['\n']
            rw [ih rest2.length (by omega) rest2 rfl]
            rfl
          · have e1 : replaceColonEq ((':' :: c2 :: rest2) ++ ['\n']) =
                ':' :: replaceColonEq ((c2 :: rest2) ++ ['\n']) := by
              simp [replaceColonEq, h2]
            have e2 : replaceColonEq (':' :: c2 :: rest2) =
                ':' :: replaceColonEq (c2 :: rest2) := by
              simp [replaceColonEq, h2]
            rw [e1, e2, ih (c2 :: rest2).length (by simp; omega) (c2 :: rest2) rfl]
            rfl
      · have e1 : replaceColonEq ((c1 :: rest) ++ ['\n']) =
            c1 :: replaceColonEq (rest ++ ['\n']) := by
          simp [replaceColonEq, h1]
        have e2 : replaceColonEq (c1 :: rest) = c1 :: replaceColonEq rest := by
          simp [replaceColonEq, h1]
        rw [e1, e2, ih rest.length (by omega) rest rfl]
        rfl

theorem chainParse_append_nl (cs : List Char) :
    chainParse (String.mk (cs ++ ['\n'])) = chainParse (String.mk cs) := by
  unfold chainParse
  rw [jsonLoads_append_nl, mk_data, mk_data, regexRecords_append_nl,
    pyLiteralEval_append_nl]

theorem splitOnChar_ne_nil (sep : Char) : ∀ cs, splitOnChar sep cs ≠ [] := by
  intro cs
  cases cs with
  | nil => simp [splitOnChar]
  | cons c rest =>
    simp only [splitOnChar]
    cases splitOnChar sep rest with
    | nil => simp
    | cons l ls =>
      show (if c = sep then [] :: l :: ls else (c :: l) :: ls) ≠ []
      by_cases hc : c = sep
      · rw [if_pos hc]; simp
      · rw [if_neg hc]; simp

theorem joinNl_single (x : List Char) : joinNl [x] = x := by
  simp [joinNl, List.intercalate, List.intersperse]

theorem joinNl_cons_cons (x y : List Char) (ls : List (List Char)) :
    joinNl (x :: y :: ls) = x ++ '\n' :: joinNl (y :: ls) := by
  simp [joinNl, List.intercalate, List.intersperse]

theorem joinNl_cons_head (c : Char) (l : List Char) (ls : List (List Char)) :
    joinNl ((c :: l) :: ls) = c :: joinNl (l :: ls) := by
  cases ls with
  | nil => rw [joinNl_single, joinNl_single]
  | cons y t => rw [joinNl_cons_cons, joinNl_cons_cons]; rfl

theorem joinNl_splitOnChar : ∀ cs, joinNl (splitOnChar '\n' cs) = cs := by
  intro cs
  induction cs with
  | nil => rfl
  | cons c rest ih =>
    cases h : splitOnChar '\n' rest with
    | nil => exact absurd h (splitOnChar_ne_nil '\n' rest)
    | cons l ls =>
      rw [h] at ih
      by_cases hc : c = '\n'
      · subst hc
        have e : splitOnChar '\n' ('\n' :: rest) = [] :: l :: ls := by
          simp [splitOnChar, h]
        rw [e, joinNl_cons_cons, List.nil_append, ih]
      · have e : splitOnChar '\n' (c :: rest) = (c :: l) :: ls := by
          simp [splitOnChar, h, hc]
        rw [e, joinNl_cons_head, ih]

theorem splitOnChar_prepend : ∀ xs rest, '\n' ∉ xs →
    splitOnChar '\n' (xs ++ '\n' :: rest) = xs :: splitOnChar '\n' rest := by
  intro xs
  induction xs with
  | nil =>
    intro rest _
    cases h : splitOnChar '\n' rest with
    | nil => exact absurd h (splitOnChar_ne_nil '\n' rest)
    | cons l ls => simp [splitOnChar, h]
  | cons x xs ih =>
    intro rest hx
    have hx1 : ¬ (x = '\n') :=
      fun e => hx (by rw [← e]; exact List.mem_cons_self x xs)
    have hx2 : '\n' ∉ xs := fun m => hx (List.mem_cons_of_mem _ m)
    simp only [List.cons_append, List.append_eq, splitOnChar, ih rest hx2,
      if_neg hx1]

theorem listStartsWith_append_nl :
    ∀ (pat : List Char), '\n' ∉ pat → ∀ xs ys,
      listStartsWith pat (xs ++ '\n' :: ys) = listStartsWith pat xs := by
  intro pat
  induction pat with
  | nil => intro _ xs _; cases xs <;> rfl
  | cons p ps ih =>
    intro hp xs ys
    have hp1 : ¬ (p = '\n') :=
      fun e => hp (by rw [← e]; exact List.mem_cons_self p ps)
    have hp2 : '\n' ∉ ps := fun m => hp (List.mem_cons_of_mem _ m)
    cases xs with
    | nil => simp [listStartsWith, hp1]
    | cons x xs => simp [listStartsWith, ih hp2 xs ys]

theorem listStartsWith_of_prefix : ∀ (l cs : List Char), l <+: cs →
    listStartsWith l cs = true := by
  intro l
  induction l with
  | nil => intro cs _; rfl
  | cons a l ih =>
    intro cs h
    obtain ⟨t, rfl⟩ := h
    simp [listStartsWith, ih (l ++ t) ⟨t, rfl⟩]

theorem listHasInfix_of_sub : ∀ (cs l : List Char), l <:+: cs →
    listHasInfix cs l = true := by
  intro cs
  induction cs with
  | nil =>
    intro l h
    have : l = [] := List.eq_nil_of_infix_nil h
    subst this
    rfl
  | cons c rest ih =>
    intro l h
    rcases List.infix_cons_iff.mp h with hp | hi
    · simp only [listHasInfix, listStartsWith_of_prefix l (c :: rest) hp, if_true]
    · simp only [listHasInfix]
      split
      · rfl
      · exact ih l hi

theorem splitOnChar_head_tail : ∀ cs : List Char, ∃ l0 ls,
    splitOnChar '\n' cs = l0 :: ls ∧ l0 <+: cs ∧ ∀ l ∈ ls, l <:+: cs := by
  intro cs
  induction cs with
  | nil => exact ⟨[], [], rfl, List.nil_prefix, by simp⟩
  | cons c rest ih =>
    obtain ⟨l0, ls, heq, hpre, hinf⟩ := ih
    by_cases hc : c = '\n'
    · subst hc
      refine ⟨[], l0 :: ls, by simp [splitOnChar, heq], List.nil_prefix, ?_⟩
      intro l hl
      rcases List.mem_cons.mp hl with rfl | hl
      · exact List.infix_cons hpre.isInfix
      · exact List.infix_cons (hinf l hl)
    · obtain ⟨t, rfl⟩ := hpre
      refine ⟨c :: l0, ls, by simp [splitOnChar, heq, hc], ⟨t, rfl⟩, ?_⟩
      intro l hl
      exact List.infix_cons (hinf l hl)

theorem splitOnChar_mem_sub (cs l : List Char)
    (h : l ∈ splitOnChar '\n' cs) : l <:+: cs := by
  obtain ⟨l0, ls, heq, hpre, hinf⟩ := splitOnChar_head_tail cs
  rw [heq] at h
  rcases List.mem_cons.mp h with rfl | h
  · exact hpre.isInfix
  · exact hinf l h

theorem parseJsonGo_none : ∀ lines, (∀ l ∈ lines, l ≠ jsonFenceChars) →
    parseJsonGo lines = none := by
  intro lines
  induction lines with
  | nil => intro _; rfl
  | cons l ls ih =>
    intro h
    simp only [parseJsonGo, if_neg (h l (List.mem_cons_self l ls))]
    exact ih fun l' m => h l' (List.mem_cons_of_mem _ m)

theorem takeBeforeFence_no : ∀ xs : List Char,
    listHasInfix xs fence3 = false →
    takeBeforeFence (xs ++ '\n' :: fence3) = xs ++ ['\n'] := by
  intro xs
  induction xs with
  | nil => intro _; rfl
  | cons c rest ih =>
    intro h
    have hx : listStartsWith fence3 (c :: rest) = false := by
      by_cases hs : listStartsWith fence3 (c :: rest) = true
      · simp only [listHasInfix, hs, if_true] at h
        exact absurd h (by simp)
      · exact Bool.eq_false_iff.mpr hs
    have hrest : listHasInfix rest fence3 = false := by
      simp only [listHasInfix, hx, Bool.false_eq_true, if_false] at h
      exact h
    have hsw := listStartsWith_append_nl fence3 (by decide) (c :: rest) fence3
    simp only [List.cons_append, List.append_eq] at hsw
    simp only [List.cons_append, List.append_eq, takeBeforeFence, hsw, hx,
      Bool.false_eq_true, if_false, ih hrest]

theorem splitOnChar_no_sep (sep : Char) : ∀ xs, sep ∉ xs →
    splitOnChar sep xs = [xs] := by
  intro xs
  induction xs with
  | nil => intro _; rfl
  | cons c rest ih =>
    intro h
    have hc : ¬ (c = sep) := by
      intro e; subst e
      exact h (List.mem_cons_self c rest)
    have h2 : sep ∉ rest := fun m => h (List.mem_cons_of_mem _ m)
    simp only [splitOnChar, ih h2, if_neg hc]

set_option maxHeartbeats 2000000 in
theorem pySplitlinesGo_nl : ∀ (cs : List Char),
    (∀ c ∈ cs, pyLineSepChar c = true → c = '\n') →
    ∀ acc : List Char, '\n' ∉ acc →
      pySplitlinesGo acc cs =
        if acc.reverse ++ cs = [] then []
        else if (acc.reverse ++ cs).getLast? = some '\n' then
          (splitOnChar '\n' (acc.reverse ++ cs)).dropLast
        else splitOnChar '\n' (acc.reverse ++ cs) := by
  intro cs
  induction cs with
  | nil =>
    intro _ acc hacc
    by_cases ha : acc = []
    · subst ha; rfl
    · have hra : ¬ (acc.reverse = []) := by simpa using ha
      have hgl : ¬ (acc.reverse.getLast? = some '\n') := fun hg =>
        hacc (by simpa using List.mem_of_mem_getLast? hg)
      rw [show pySplitlinesGo acc [] =
            (if acc = [] then [] else [acc.reverse]) from rfl,
        if_neg ha, List.append_nil, if_neg hra, if_neg hgl]
      exact (splitOnChar_no_sep '\n' acc.reverse (by simpa using hacc)).symm
  | cons c rest ih =>
    intro h acc hacc
    have htl : ∀ x ∈ rest, pyLineSepChar x = true → x = '\n' :=
      fun x m s => h x (List.mem_cons_of_mem _ m) s
    have hnacc : '\n' ∉ acc.reverse := by simpa using hacc
    by_cases hsepc : pyLineSepChar c = true
    · have hcn : c = '\n' := h c (List.mem_cons_self c rest) hsepc
      subst hcn
      rw [show pySplitlinesGo acc ('\n' :: rest) =
            acc.reverse :: pySplitlinesGo [] rest from rfl,
        ih htl [] (by simp)]
      simp only [List.reverse_nil, List.nil_append]
      have hne : ¬ (acc.reverse ++ '\n' :: rest = []) := by simp
      by_cases hr0 : rest = []
      · subst hr0
        rw [if_pos rfl, if_neg hne]
        have hgl2 : (acc.reverse ++ '\n' :: ([] : List Char)).getLast? =
            some '\n' := by
          rw [List.getLast?_append_of_ne_nil acc.reverse (by simp)]
          decide
        rw [if_pos hgl2, splitOnChar_prepend acc.reverse [] hnacc]
        simp [splitOnChar]
      · rw [if_neg hr0, if_neg hne]
        have hgl : (acc.reverse ++ '\n' :: rest).getLast? = rest.getLast? := by
          rw [List.getLast?_append_of_ne_nil acc.reverse (by simp)]
          cases rest with
          | nil => exact absurd rfl hr0
          | cons a t => exact List.getLast?_cons_cons
        rw [hgl, splitOnChar_prepend acc.reverse rest hnacc]
        by_cases hgn : rest.getLast? = some '\n'
        · rw [if_pos hgn, if_pos hgn,
            List.dropLast_cons_of_ne_nil (splitOnChar_ne_nil '\n' rest)]
        · rw [if_neg hgn, if_neg hgn]
    · have hcr : ¬ (c = '\r') := by
        intro e; subst e
        exact absurd (by decide : pyLineSepChar '\r' = true)
          (by simpa using hsepc)
      have hcn : ¬ (c = '\n') := by
        intro e; subst e
        exact absurd (by decide : pyLineSepChar '\n' = true)
          (by simpa using hsepc)
      have e : pySplitlinesGo acc (c :: rest) = pySplitlinesGo (c :: acc) rest := by
        rw [pySplitlinesGo.eq_3 acc c rest (fun _ hc2 _ => hcr hc2)]
        rw [if_neg hsepc]
      rw [e, ih htl (c :: acc) ?_]
      · have hre : (c :: acc).reverse ++ rest = acc.reverse ++ c :: rest := by simp
        rw [hre]
      · intro m
        rcases List.mem_cons.mp m with e2 | m2
        · exact hcn e2.symm
        · exact hacc m2

theorem pySplitlines_nl (cs : List Char)
    (h : ∀ c ∈ cs, pyLineSepChar c = true → c = '\n') :
    pySplitlines cs =
      if cs = [] then []
      else if cs.getLast? = some '\n' then (splitOnChar '\n' cs).dropLast
      else splitOnChar '\n' cs := by
  unfold pySplitlines
  rw [pySplitlinesGo_nl cs h [] (by simp)]
  simp only [List.reverse_nil, List.nil_append]

theorem parse_json_id (p : String) (hf : listHasInfix p.data fence3 = false)
    (hsep : ∀ c ∈ p.data, pyLineSepChar c = true → c = '\n') :
    parse_json p = p := by
  unfold parse_json
  have hnone : parseJsonGo (pySplitlines p.data) = none := by
    apply parseJsonGo_none
    intro l hl hEq
    have hinf : l <:+: p.data := by
      rw [pySplitlines_nl p.data hsep] at hl
      split at hl
      · exact absurd hl (by simp)
      · split at hl
        · exact splitOnChar_mem_sub p.data l (List.mem_of_mem_dropLast hl)
        · exact splitOnChar_mem_sub p.data l hl
    rw [hEq] at hinf
    have h3 : fence3 <:+: p.data :=
      (show fence3 <:+: jsonFenceChars from ⟨[], "json".data, rfl⟩).trans hinf
    rw [listHasInfix_of_sub p.data fence3 h3] at hf
    exact absurd hf (by simp)
  rw [hnone]

theorem parse_json_wrap (p : String)
    (hf : listHasInfix p.data fence3 = false)
    (hsep : ∀ c ∈ p.data, pyLineSepChar c = true → c = '\n') :
    parse_json (wrapFence p) = String.mk (p.data ++ ['\n']) := by
  unfold parse_json wrapFence
  have hdata : ("\x60\x60\x60json\n" ++ p ++ "\n\x60\x60\x60").data =
      jsonFenceChars ++ '\n' :: (p.data ++ '\n' :: fence3) := by
    rw [String.data_append, String.data_append,
      show ("\x60\x60\x60json\n" : String).data = jsonFenceChars ++ ['\n'] from rfl,
      show ("\n\x60\x60\x60" : String).data = '\n' :: fence3 from rfl]
    simp
  rw [hdata]
  have hw : ∀ c ∈ jsonFenceChars ++ '\n' :: (p.data ++ '\n' :: fence3),
      pyLineSepChar c = true → c = '\n' := by
    intro c hc hsepc
    rcases List.mem_append.mp hc with h1 | h2
    · have hfc := (by decide : ∀ x ∈ jsonFenceChars, pyLineSepChar x = false) c h1
      rw [hfc] at hsepc
      exact absurd hsepc (by simp)
    · rcases List.mem_cons.mp h2 with rfl | h3
      · rfl
      · rcases List.mem_append.mp h3 with h4 | h5
        · exact hsep c h4 hsepc
        · rcases List.mem_cons.mp h5 with rfl | h6
          · rfl
          · have hfc := (by decide : ∀ x ∈ fence3, pyLineSepChar x = false) c h6
            rw [hfc] at hsepc
            exact absurd hsepc (by simp)
  have hsplit : pySplitlines (jsonFenceChars ++ '\n' :: (p.data ++ '\n' :: fence3)) =
      jsonFenceChars :: splitOnChar '\n' (p.data ++ '\n' :: fence3) := by
    rw [pySplitlines_nl _ hw]
    rw [if_neg (by simp [jsonFenceChars])]
    rw [if_neg ?_]
    · exact splitOnChar_prepend jsonFenceChars (p.data ++ '\n' :: fence3) (by decide)
    · have e : jsonFenceChars ++ '\n' :: (p.data ++ '\n' :: fence3) =
          (jsonFenceChars ++ '\n' :: p.data ++ ['\n']) ++ fence3 := by simp
      rw [e, List.getLast?_append_of_ne_nil
        (jsonFenceChars ++ '\n' :: p.data ++ ['\n']) (show fence3 ≠ [] by decide)]
      decide
  rw [hsplit]
  have hgo : parseJsonGo (jsonFenceChars :: splitOnChar '\n' (p.data ++ '\n' :: fence3)) =
      some (takeBeforeFence (joinNl (splitOnChar '\n' (p.data ++ '\n' :: fence3)))) := by
    simp [parseJsonGo]
  rw [hgo, joinNl_splitOnChar, takeBeforeFence_no p.data hf]

/-- Claim C5, counterexample: wrapping is NOT always parse-invariant.  A
well-formed payload whose text content itself contains a triple backtick
parses via `json.loads` when raw (one record), but once fenced,
`parse_json` cuts the joined content at the FIRST closing fence — the one
inside the string — truncating the payload mid-string; `json.loads` then
fails and the regex stage matches nothing, so the wrapped response yields
an empty record list: a different result through a different stage. -/
theorem claim_C5_counterexample :
    (parsedBoxesOf fencePayload).2 = ParseStage.viaJson ∧
    (parsedBoxesOf (wrapFence fencePayload)).2 = ParseStage.viaRegex ∧
    (∃ r, (parsedBoxesOf fencePayload).1 = some (PyVal.arr [r])) ∧
    (parsedBoxesOf (wrapFence fencePayload)).1 = some (PyVal.arr []) ∧
    parsedBoxesOf (wrapFence fencePayload) ≠ parsedBoxesOf fencePayload := by
  refine ⟨rfl, rfl, ⟨_, rfl⟩, rfl, fun h => ?_⟩
  have h2 : ParseStage.viaRegex = ParseStage.viaJson := by
    have h3 := congrArg Prod.snd h
    rw [show (parsedBoxesOf (wrapFence fencePayload)).2 = ParseStage.viaRegex
          from rfl,
        show (parsedBoxesOf fencePayload).2 = ParseStage.viaJson from rfl] at h3
    exact h3
  exact ParseStage.noConfusion h2

/-- A payload whose only exotic character is a vertical tab (no backtick,
no carriage return) also fails wrap-invariance: raw, the regex stage
matches one record (`.` crosses the VT); wrapped, `splitlines` breaks at
the VT and the rejoin turns it into a newline the regex dot cannot cross,
so zero records match.  This is the case that forces the amended C5
hypothesis to exclude every line separator other than the newline, not
just the carriage return. -/
theorem vtPayload_not_wrap_invariant :
    (∃ r, (parsedBoxesOf vtPayload).1 = some (PyVal.arr [r])) ∧
    (parsedBoxesOf (wrapFence vtPayload)).1 = some (PyVal.arr []) ∧
    listHasInfix vtPayload.data fence3 = false ∧
    '\r' ∉ vtPayload.data :=
  ⟨⟨_, rfl⟩, rfl, by decide, by decide⟩

/-- Claim C5, amended: for every payload that does not itself contain a
triple backtick and whose only line-separator characters (in the full
`str.splitlines()` sense: LF, CR, VT, FF, FS, GS, RS, NEL, LS, PS) are
`'\n'`, wrapping it in the code fence and parsing yields exactly the same
parsed record value through the same stage as parsing the unwrapped
payload directly: `parse_json` recovers the payload plus a trailing
newline, and every stage of the fallback chain (tokenizer, regex scan,
literal tokenizer) is invariant under that trailing newline.  (Payloads
with another separator genuinely diverge: `splitlines` breaks there and
the rejoin turns the break into `'\n'`, which the regex dot cannot
cross.) -/
theorem claim_C5_amended (p : String)
    (hf : listHasInfix p.data fence3 = false)
    (hsep : ∀ c ∈ p.data, pyLineSepChar c = true → c = '\n') :
    parsedBoxesOf (wrapFence p) = parsedBoxesOf p := by
  unfold parsedBoxesOf cleanedOf
  rw [parse_json_wrap p hf hsep, parse_json_id p hf hsep, mk_data,
    replaceColonEq_append_nl p.data.length p.data rfl]
  exact chainParse_append_nl (replaceColonEq p.data)

/-- Closed witness for the amended C5 theorem at a concrete fence-free
payload. -/
theorem claim_C5_amended_witness :
    listHasInfix ("[1, 2]" : String).data fence3 = false ∧
    (∀ c ∈ ("[1, 2]" : String).data, pyLineSepChar c = true → c = '\n') ∧
    parsedBoxesOf (wrapFence "[1, 2]") = parsedBoxesOf "[1, 2]" :=
  ⟨by decide, by decide, claim_C5_amended "[1, 2]" (by decide) (by decide)⟩

end PPT